import Mathlib

/-!
# Verification of the geowartry grid flow-field pathfinding engine

Shallow embedding of the core pathfinding subsystem of the repository
(`src/game/cell.rs`, with the event plumbing of `src/game/input_event.rs` and
`src/game/unit_move.rs`), together with proofs settling the frozen claims.

Modelling conventions:
* Coordinates are `Int × Int` (the source uses `i64` pairs `(column, row)`).
* The dense `Vec<Vec<Cell>>` board (`board[c][r]`, 15 columns × 10 rows) is
  modelled componentwise: the terrain states as a total function
  `Grid = Coord → CellState` (read-only during a solve), the per-cell
  `debug_distance` as a list-of-lists `DistMap` indexed `[column][row]`, and
  the per-cell `debug_direction` as a per-cell computation (the direction
  pass writes only `debug_direction` and reads only `state`/`debug_distance`,
  so its effect is a pure function of the cell).
* `f32` distance values are modelled exactly.  Every distance the solver ever
  stores is a sum of orthogonal steps (cost `1.0`) and diagonal steps
  (cost `sqrt 2`), hence of the form `a + b * sqrt 2` with `a b : Nat`; such a
  value is represented by the pair `(a, b)`.  The sentinels `f32::MAX` and
  `f32::NAN` are separate constructors.  Comparison of a finite value with
  `f32::MAX` is modelled as always-true: on the fixed 15 × 10 grid every path
  length is below 400, astronomically below `f32::MAX`.  Comparisons
  involving `NAN` are false, as for `f32`.  The `f32` rounding of sums
  `a + b * sqrt 2` is abstracted away: the minimal gap between two distinct
  representable path lengths on this grid is ≈ 3e-3, far above the
  accumulated `f32` rounding error of the few additions involved, so the
  exact ordering and the `f32` ordering of stored distances agree.
* Direction vectors live in `ℚ(√2)`, represented exactly by an integer
  numerator pair and an integer denominator (`Q2`); the final
  `Vec2::normalize` of the direction pass is modelled symbolically:
  `DirVal.norm v` denotes `v / ‖v‖`, and `DirVal.nan` is the NaN vector that
  `glam`'s `normalize` produces on a zero-length input (`0 * (1/0) = NaN`).
-/

namespace Geowartry

/-- Grid coordinate `(column, row)`, as the `(i64, i64)` pairs of the source. -/
abbrev Coord := Int × Int

/-- `CellState` from `src/game/cell.rs`. -/
inductive CellState where
  | Empty
  | Water
  | Iron
  | Rock
  | Building
  | Mine
  deriving DecidableEq, Repr

/-- `Cell::is_passable`: only `Empty` and `Mine` are passable. -/
def CellState.isPassable : CellState → Bool
  | .Empty => true
  | .Mine => true
  | _ => false

/-- `Game::BOARD_COLUMN` (src/game.rs line 46). -/
def BOARD_COLUMN : Int := 15

/-- `Game::BOARD_ROW` (src/game.rs line 45). -/
def BOARD_ROW : Int := 10

/-- The bounds test of the source.  `CellField::get_cell` rejects
`c < min_col() || c > max_col() || r < min_row() || r > max_row()` with
`min_col = min_row = 0`, `max_col = BOARD_COLUMN - 1`, `max_row =
BOARD_ROW - 1`; the solver's inline test
`nx < 0 || nx >= BOARD_COLUMN || ny < 0 || ny >= BOARD_ROW` is the same
predicate on `i64`. -/
def inBounds (c : Coord) : Bool :=
  decide (0 ≤ c.1) && decide (c.1 < BOARD_COLUMN) &&
  decide (0 ≤ c.2) && decide (c.2 < BOARD_ROW)

/-- The eight neighbour offsets `(dc[i], dr[i])` in the order of the source's
arrays `dc = [0,1,0,-1,-1,-1,1,1]`, `dr = [1,0,-1,0,1,-1,1,-1]` (identical in
`get_reachable_adjacent_cells`, `get_adjacent_obstacles` and
`debug_calculate_distance`). -/
def dirs : List (Int × Int) :=
  [(0,1), (1,0), (0,-1), (-1,0), (-1,1), (-1,-1), (1,1), (1,-1)]

/-- A terrain map: the `state` component of the cell grid.  Only values at
in-bounds coordinates are ever read (the source bounds-checks every
access). -/
abbrev Grid := Coord → CellState

/-- An exact path length `a + b * √2` (`a` orthogonal steps, `b` diagonal
steps). -/
abbrev PLen := Nat × Nat

/-- Real value of an exact path length. -/
noncomputable def PLen.toReal (w : PLen) : ℝ :=
  (w.1 : ℝ) + (w.2 : ℝ) * Real.sqrt 2

/-- Exact addition of path lengths (models the `f32` addition
`distance + step_cost`). -/
def PLen.add (u v : PLen) : PLen := (u.1 + v.1, u.2 + v.2)

/-- Exact comparison `a + b√2 < a' + b'√2`, decided by integer arithmetic
(`PLen.lt_iff_toReal` below proves it equivalent to the real comparison). -/
def PLen.lt (u v : PLen) : Bool :=
  let d : Int := (v.1 : Int) - (u.1 : Int)
  let e : Int := (u.2 : Int) - (v.2 : Int)
  -- u < v ↔ e·√2 < d
  if 0 < d then decide (e ≤ 0) || decide (2 * e * e < d * d)
  else decide (e < 0) && decide (d * d < 2 * e * e)

/-- The step cost of offset `δ`: `√2` for a diagonal step, `1` otherwise
(the source computes `((dx*dx + dy*dy) as f32).sqrt()`, which is `1.0` or
`sqrt 2` for the eight offsets). -/
def stepCost (δ : Int × Int) : PLen :=
  if δ.1 * δ.2 ≠ 0 then (0, 1) else (1, 0)

/-- An `f32` distance value as stored in `Cell::debug_distance`: `f32::NAN`
(the value set by `CellField::init`), `f32::MAX` (the "infinity" sentinel
used by the solver) or an exact finite path length. -/
inductive D where
  | nan
  | max
  | fin (w : PLen)
  deriving DecidableEq, Repr

/-- The comparison `new_distance < ncell.debug_distance` of the solver:
false against `NAN` (every `f32` comparison with NaN is false), true against
`MAX` (any stored path length is far below `f32::MAX`), exact otherwise. -/
def D.ltD (w : PLen) : D → Bool
  | .nan => false
  | .max => true
  | .fin v => PLen.lt w v

/-- The per-cell `debug_distance` field of the board, as the
`Vec<Vec<Cell>>` stores it: a list of 15 columns, each a list of 10 rows. -/
abbrev DistMap := List (List D)

/-- Read `board[c][r].debug_distance` (callers bounds-check first, so the
out-of-range defaults are never exercised). -/
def DistMap.getC (m : DistMap) (c : Coord) : D :=
  ((m.getD c.1.toNat []).getD c.2.toNat .nan)

/-- Write `board[c][r].debug_distance` (callers bounds-check first). -/
def DistMap.setC (m : DistMap) (c : Coord) (v : D) : DistMap :=
  m.set c.1.toNat ((m.getD c.1.toNat []).set c.2.toNat v)

/-- The board shape fixed by `CellField::init`: 15 columns of 10 rows. -/
def DistMap.Shape (m : DistMap) : Prop :=
  m.length = 15 ∧ ∀ col ∈ m, col.length = 10

end Geowartry

namespace Geowartry

/-! ## The distance solver (`debug_calculate_distance`, cell.rs 541–598) -/

/-- Worklist state of the BFS relaxation: the distance field plus the FIFO
queue `q : VecDeque<(i64, i64, f32)>`. -/
structure SState where
  dist : DistMap
  queue : List (Coord × PLen)

/-- One iteration of the solver's inner `for i in 0..8` body for the popped
entry `(x, y, dv)` and offset `δ`: skip if out of the field, skip if the
neighbour is impassable, skip a diagonal neighbour whose two adjacent
orthogonal cells are both impassable; otherwise compute
`new_distance = distance + step_cost` and, if it improves the neighbour's
distance, store it and push the neighbour. -/
def relaxDir (G : Grid) (x y : Int) (dv : PLen) (s : SState) (δ : Int × Int) :
    SState :=
  let nx := x + δ.1
  let ny := y + δ.2
  if !inBounds (nx, ny) then s
  else if !(G (nx, ny)).isPassable then s
  else if δ.1 * δ.2 ≠ 0 && !(G (x, ny)).isPassable && !(G (nx, y)).isPassable then s
  else
    let nd := PLen.add dv (stepCost δ)
    if D.ltD nd (s.dist.getC (nx, ny)) then
      { dist := s.dist.setC (nx, ny) (.fin nd)
        queue := s.queue ++ [((nx, ny), nd)] }
    else s

/-- Process one popped queue entry over all eight neighbour offsets. -/
def relaxCell (G : Grid) (x y : Int) (dv : PLen) (s : SState) : SState :=
  dirs.foldl (relaxDir G x y dv) s

/-- The `while !q.is_empty()` loop, with explicit fuel.  Returns `some` final
distance field exactly when the queue empties within `fuel` pops (i.e. when
the source's loop terminates within that many iterations). -/
def runSolve (G : Grid) : Nat → SState → Option DistMap
  | 0, s => match s.queue with
    | [] => some s.dist
    | _ => none
  | fuel + 1, s => match s.queue with
    | [] => some s.dist
    | (c, dv) :: rest => runSolve G fuel (relaxCell G c.1 c.2 dv ⟨s.dist, rest⟩)

/-- The reset loop of `debug_calculate_distance`: every cell of the board —
impassable cells included — gets `debug_distance = f32::MAX`. -/
def resetDist (prev : DistMap) : DistMap :=
  prev.map (fun col => col.map (fun _ => D.max))

/-- `debug_calculate_distance` for destination `dest`, starting from the
previous per-cell distances `prev`: reset every cell to `f32::MAX`, set the
destination cell to `0.0` (`get_cell_mut(dest)` panics — modelled as `none`
— if `dest` is out of bounds; no passability check of `dest` is performed),
push the destination and run the relaxation loop. -/
def debugCalculateDistance (G : Grid) (dest : Coord) (prev : DistMap)
    (fuel : Nat) : Option DistMap :=
  if inBounds dest then
    runSolve G fuel
      { dist := (resetDist prev).setC dest (.fin (0, 0))
        queue := [(dest, (0, 0))] }
  else none

/-! ## Reachable neighbours (`CellField::get_reachable_adjacent_cells`,
cell.rs 347–381) -/

/-- The admissibility of a single step shared by the solver loop and
`get_reachable_adjacent_cells`: target in bounds, target passable, and a
diagonal step is blocked when both adjacent orthogonal cells are
impassable. -/
def stepOk (G : Grid) (c : Coord) (δ : Int × Int) : Bool :=
  inBounds (c.1 + δ.1, c.2 + δ.2) &&
  (G (c.1 + δ.1, c.2 + δ.2)).isPassable &&
  !(δ.1 * δ.2 ≠ 0 && !(G (c.1, c.2 + δ.2)).isPassable &&
    !(G (c.1 + δ.1, c.2)).isPassable)

/-- `CellField::get_reachable_adjacent_cells`: the neighbours of `c` in
`dirs` order that are in bounds, passable and not corner-blocked
(the source checks `get_cell((nc, r))` and `get_cell((c, nr))`, i.e. the two
orthogonal cells adjacent to a diagonal step). -/
def getReachableAdjacentCells (G : Grid) (c : Coord) : List Coord :=
  dirs.foldl
    (fun ret δ =>
      let nc := c.1 + δ.1
      let nr := c.2 + δ.2
      if !inBounds (nc, nr) then ret
      else if !(G (nc, nr)).isPassable then ret
      else if (nc - c.1) * (nr - c.2) ≠ 0 && !(G (nc, c.2)).isPassable &&
          !(G (c.1, nr)).isPassable then ret
      else ret ++ [(nc, nr)])
    []

end Geowartry

namespace Geowartry

/-! ## The direction solver (`debug_calculate_direction`, cell.rs 600–689) -/

/-- An element of `ℚ(√2)`: the value `(a + b·√2) / den`.  All scalars the
direction pass manipulates (weights `min_adj_dist / candidate_distance`,
components of normalised offsets, their sums) lie in this field, so the
`f32` computation is modelled exactly up to rounding. -/
structure Q2 where
  a : Int
  b : Int
  den : Int
  deriving DecidableEq, Repr

def Q2.ofInt (n : Int) : Q2 := ⟨n, 0, 1⟩

def Q2.add (x y : Q2) : Q2 :=
  ⟨x.a * y.den + y.a * x.den, x.b * y.den + y.b * x.den, x.den * y.den⟩

def Q2.mul (x y : Q2) : Q2 :=
  ⟨x.a * y.a + 2 * x.b * y.b, x.a * y.b + x.b * y.a, x.den * y.den⟩

/-- Field inverse in `ℚ(√2)` (by the conjugate; `a² − 2b² = 0` only for
`a = b = 0`, so this is the true inverse of every nonzero value). -/
def Q2.inv (x : Q2) : Q2 :=
  ⟨x.den * x.a, -(x.den * x.b), x.a * x.a - 2 * x.b * x.b⟩

def Q2.div (x y : Q2) : Q2 := x.mul y.inv

/-- Whether the represented value is `0` (for a well-formed `den ≠ 0`). -/
def Q2.isZero (x : Q2) : Bool := x.a = 0 && x.b = 0

/-- A 2-d vector with exact `ℚ(√2)` components. -/
abbrev Vec2Q := Q2 × Q2

def Vec2Q.add (u v : Vec2Q) : Vec2Q := (u.1.add v.1, u.2.add v.2)

def Vec2Q.smul (v : Vec2Q) (k : Q2) : Vec2Q := (v.1.mul k, v.2.mul k)

/-- `to_adj_vecs.iter().sum::<Vec2>()`. -/
def vsum (l : List Vec2Q) : Vec2Q :=
  l.foldl Vec2Q.add (Q2.ofInt 0, Q2.ofInt 0)

/-- A `Cell::debug_direction` value: either the NaN sentinel (set by
`CellField::init`, by the destination/impassable branch, and produced by
`Vec2::normalize` on a zero-length vector) or a normalised vector.
`DirVal.norm v` denotes the unit vector `v / ‖v‖` (with `v ≠ 0`). -/
inductive DirVal where
  | nan
  | norm (v : Vec2Q)
  deriving DecidableEq, Repr

/-- `Vec2::normalize` as the direction pass applies it to the summed vector:
a zero-length vector yields the NaN vector (`glam` computes
`self * length().recip()` = `0 * ∞` = NaN), any other vector yields the unit
vector in its direction, denoted symbolically. -/
def normalizeModel (v : Vec2Q) : DirVal :=
  if v.1.isZero && v.2.isZero then .nan else .norm v

/-- `Vec2::normalize` applied to a neighbour offset `δ` (whose length is `1`
or `√2`): orthogonal offsets are unchanged, a diagonal offset becomes
`(δ.1·√2/2, δ.2·√2/2)`. -/
def unitDir (δ : Int × Int) : Vec2Q :=
  if δ.1 * δ.2 ≠ 0 then (⟨0, δ.1, 2⟩, ⟨0, δ.2, 2⟩)
  else (Q2.ofInt δ.1, Q2.ofInt δ.2)

/-- The f32 scalar value of a stored distance, for the weight computation
`min_adj_dist / ac.debug_distance`.  The `MAX`/`NAN` cases are junk values:
candidates are filtered to `debug_distance != f32::MAX`, and after a solve no
cell holds `NAN`, so the weight is only ever formed from finite values. -/
def D.toQ2 : D → Q2
  | .fin w => ⟨(w.1 : Int), (w.2 : Int), 1⟩
  | _ => ⟨0, 0, 1⟩

/-- Rust `f32::min` as used in the fold computing `min_adj_dist`
(`fold(f32::MAX, |accu, &x| accu.min(x.debug_distance))`): NaN operands are
ignored, `MAX` is larger than every finite value. -/
def D.fmin : D → D → D
  | .nan, y => y
  | x, .nan => x
  | .max, y => y
  | x, .max => x
  | .fin u, .fin v => if PLen.lt v u then .fin v else .fin u

/-- Sign of `A + B·√2` for integers `A B`, decided by integer arithmetic. -/
def sign2 (A B : Int) : Int :=
  if 0 ≤ A && 0 ≤ B then (if A = 0 && B = 0 then 0 else 1)
  else if A ≤ 0 && B ≤ 0 then (if A = 0 && B = 0 then 0 else -1)
  else if 0 < A then (if 2 * B * B < A * A then 1 else if A * A < 2 * B * B then -1 else 0)
  else (if 2 * B * B < A * A then -1 else if A * A < 2 * B * B then 1 else 0)

/-- The tie test `target.debug_distance - min_adj_dist <= f32::EPSILON` of
the near-obstacle branch, exactly (`f32::EPSILON = 2⁻²³ = 1 / 8388608`):
for finite operands, `Δ ≤ ε ↔ sign(2²³·Δa − 1 + 2²³·Δb·√2) ≤ 0`; a NaN
operand compares false; `x − MAX` is hugely negative (true) and `MAX − x`
hugely positive (false) for finite `x`, and `MAX − MAX = 0 ≤ ε`. -/
def D.subLeEps : D → D → Bool
  | .fin t, .fin m =>
      decide (sign2 (8388608 * ((t.1 : Int) - (m.1 : Int)) - 1)
        (8388608 * ((t.2 : Int) - (m.2 : Int))) ≤ 0)
  | .fin _, .max => true
  | .max, .fin _ => false
  | .max, .max => true
  | _, _ => false

/-- The `reachable_adj_cells.len() < 8` branch of the direction pass (cell
adjacent to an obstacle or the grid edge): walk the candidates in order and
stop at the first one whose distance ties the minimum within `f32::EPSILON`,
yielding the single un-normalised offset toward it; the `is_passable` and
corner re-checks of the source never remove a candidate (candidates already
passed them) but are modelled faithfully.  If no candidate ties (only
possible when there are no candidates), the result is the empty list. -/
def tieLoop (G : Grid) (dist : DistMap) (c : Coord) (minA : D) :
    List Coord → List Vec2Q
  | [] => []
  | t :: rest =>
    if !(G t).isPassable then tieLoop G dist c minA rest
    else if (t.1 - c.1) * (t.2 - c.2) ≠ 0 && !(G (t.1, c.2)).isPassable &&
        !(G (c.1, t.2)).isPassable then tieLoop G dist c minA rest
    else if (dist.getC t).subLeEps minA then
      [(Q2.ofInt (t.1 - c.1), Q2.ofInt (t.2 - c.2))]
    else tieLoop G dist c minA rest

/-- The fully-open branch (8 candidates): accumulate, for each candidate, the
normalised offset scaled by `min_adj_dist / candidate_distance` — except that
on reaching the destination itself the accumulated list is replaced by the
single un-normalised offset toward the destination and the loop breaks. -/
def blendLoop (dist : DistMap) (c dest : Coord) (minA : D) :
    List Coord → List Vec2Q → List Vec2Q
  | [], acc => acc
  | n :: rest, acc =>
    if n = dest then [(Q2.ofInt (n.1 - c.1), Q2.ofInt (n.2 - c.2))]
    else blendLoop dist c dest minA rest
      (acc ++ [(unitDir (n.1 - c.1, n.2 - c.2)).smul
        ((minA.toQ2).div ((dist.getC n).toQ2))])

/-- The body of `debug_calculate_direction` for one cell `c` (the source
loops this over every cell, writing only `debug_direction`, so the pass is
this pure function of the cell): impassable cells and the destination get
the NaN sentinel; otherwise the reachable neighbours with
`debug_distance != f32::MAX` form the candidate list, and the direction is
the normalised sum of the vectors produced by the `< 8` or the 8-candidate
branch. -/
def debugCalculateDirectionAt (G : Grid) (dist : DistMap) (dest : Coord)
    (c : Coord) : DirVal :=
  if !(G c).isPassable || c = dest then .nan
  else
    let cands := (getReachableAdjacentCells G c).filter
      (fun n => dist.getC n ≠ .max)
    let minA := cands.foldl (fun acc n => acc.fmin (dist.getC n)) .max
    let vecs :=
      if cands.length < 8 then tieLoop G dist c minA cands
      else blendLoop dist c dest minA cands []
    normalizeModel (vsum vecs)

end Geowartry

namespace Geowartry

/-! ## The cell field (`CellField::init`, `get_cell`, `get_cell_mut`) and the
event plumbing -/

/-- A cell's mutable payload (`Cell` minus the visual-entity handles, which
are rendering-only). -/
structure CellM where
  state : CellState
  debug_distance : D
  debug_direction : DirVal
  deriving DecidableEq, Repr

/-- Result of an accessor that may `panic!` in the source.  The source never
constructs an error value: out-of-bounds access panics. -/
inductive GetResult (α : Type) where
  | ok (val : α)
  | panicked
  deriving DecidableEq

def minCol : Int := 0
def maxCol : Int := BOARD_COLUMN - 1
def minRow : Int := 0
def maxRow : Int := BOARD_ROW - 1

/-- A cell field, coordinate to cell payload.  `CellField::init` builds the
dense 15 × 10 board; values at out-of-bounds coordinates are irrelevant
(every access panics first). -/
abbrev CellField := Coord → CellM

/-- `CellField::get_cell`: `panic!("invalid column index")` /
`panic!("invalid row index")` when the coordinate is out of bounds — no
error value is returned and no clamping happens. -/
def getCell (f : CellField) (c : Coord) : GetResult CellM :=
  if c.1 < minCol ∨ c.1 > maxCol then .panicked
  else if c.2 < minRow ∨ c.2 > maxRow then .panicked
  else .ok (f c)

/-- `CellField::get_cell_mut` followed by the state write of
`update_cell_state` (`cell.state = e.new_state`): the out-of-bounds panic
happens before any mutation; in bounds, exactly the addressed cell's state
is replaced. -/
def setCellState (f : CellField) (c : Coord) (st : CellState) :
    GetResult CellField :=
  if c.1 < minCol ∨ c.1 > maxCol then .panicked
  else if c.2 < minRow ∨ c.2 > maxRow then .panicked
  else .ok (fun u => if u = c then { f u with state := st } else f u)

/-- `CellField::init`: every cell starts `Empty` with
`debug_distance = f32::NAN` and `debug_direction = Vec2::NAN`. -/
def initField : CellField := fun _ => ⟨.Empty, .nan, .nan⟩

/-- The `debug_distance` board right after `CellField::init`: 15 columns of
10 rows, all `f32::NAN`. -/
def initDistMap : DistMap := List.replicate 15 (List.replicate 10 D.nan)

/-- One `Update`-schedule frame of the distance system
(`debug_calculate_distance`): if no `DebugSetUnitDestEvent` is pending the
field is untouched; otherwise the system solves for the FIRST pending event
(`ev_debug_set_unit_dest.read().next().unwrap()`), and the later pending
events remain unread for the following frames. -/
def frameStep (G : Grid) (fuel : Nat) (st : DistMap × List Coord) :
    Option (DistMap × List Coord) :=
  match st.2 with
  | [] => some (st.1, [])
  | d :: rest => (debugCalculateDistance G d st.1 fuel).map (fun f => (f, rest))

/-- `debug_unit_set_dest` (unit_move.rs): reads every pending event in order
and stores each in `DebugTargetCell`, so the stored target ends at the LAST
pending request. -/
def debugUnitSetDest (pending : List Coord) (target : Option Coord) :
    Option Coord :=
  pending.foldl (fun _ e => some e) target

end Geowartry

namespace Geowartry

/-! ## Concrete grids for the scenario claims -/

/-- The all-`Empty` grid. -/
def emptyGrid : Grid := fun _ => .Empty

/-- The corner-cutting scenario grid: `(2,1)` and `(1,2)` are `Iron`,
everything else `Empty`. -/
def cornerGrid : Grid := fun c =>
  if c = (2, 1) ∨ c = (1, 2) then .Iron else .Empty

/-- A grid whose cell `(3,3)` is `Iron` (impassable), used as the target of
an invalid destination request. -/
def ironDestGrid : Grid := fun c => if c = (3, 3) then .Iron else .Empty

/-- A grid with a single `Iron` obstacle at `(0,1)`. -/
def oneIronGrid : Grid := fun c => if c = (0, 1) then .Iron else .Empty

/-- A grid enclosing cell `(0,0)` with `Iron` at `(1,0)`, `(0,1)`, `(1,1)`:
cell `(0,0)` is passable but has no reachable neighbour. -/
def enclosedGrid : Grid := fun c =>
  if c = (1, 0) ∨ c = (0, 1) ∨ c = (1, 1) then .Iron else .Empty

/-- A symmetric-room grid: an `Iron` ring at Chebyshev radius 2 around
`(6,5)` with two door gaps at `(8,5)` and `(4,5)`, everything else `Empty`.
With destination `(6,8)`, the eight neighbours of `(6,5)` have pairwise
symmetric distances and the blended direction vectors cancel exactly. -/
def ringGrid : Grid := fun c =>
  if (max (c.1 - 6).natAbs (c.2 - 5).natAbs = 2) ∧ ¬(c = (8, 5) ∨ c = (4, 5))
  then .Iron else .Empty

end Geowartry

namespace Geowartry

/-! ## Real-number semantics of the exact path-length arithmetic -/

lemma sqrt2_pos : (0 : ℝ) < Real.sqrt 2 :=
  Real.sqrt_pos.mpr (by norm_num)

lemma sqrt2_sq : Real.sqrt 2 * Real.sqrt 2 = 2 :=
  Real.mul_self_sqrt (by norm_num)

lemma PLen.toReal_nonneg (w : PLen) : 0 ≤ w.toReal := by
  unfold PLen.toReal
  have := sqrt2_pos
  positivity

lemma PLen.toReal_add (u v : PLen) : (u.add v).toReal = u.toReal + v.toReal := by
  unfold PLen.toReal PLen.add
  push_cast
  ring

/-- Key quadratic fact: for nonnegative reals, `x² < y²` implies `x < y`. -/
lemma lt_of_sq_lt_sq' {x y : ℝ} (_hx : 0 ≤ x) (hy : 0 ≤ y)
    (h : x * x < y * y) : x < y := by
  by_contra hc
  push_neg at hc
  exact absurd (mul_self_le_mul_self hy hc) (not_le.mpr h)

/-- `PLen.lt` decides exactly the real comparison. -/
lemma PLen.lt_iff (u v : PLen) : PLen.lt u v = true ↔ u.toReal < v.toReal := by
  unfold PLen.lt PLen.toReal
  have hkey : ((u.1 : ℝ) + (u.2 : ℝ) * Real.sqrt 2 < (v.1 : ℝ) + (v.2 : ℝ) * Real.sqrt 2) ↔
      (((u.2 : Int) - (v.2 : Int) : Int) : ℝ) * Real.sqrt 2 <
        (((v.1 : Int) - (u.1 : Int) : Int) : ℝ) := by
    push_cast
    constructor <;> intro h <;> nlinarith [sqrt2_pos]
  rw [hkey]
  set d : Int := (v.1 : Int) - (u.1 : Int) with hd
  set e : Int := (u.2 : Int) - (v.2 : Int) with he
  have hsq : ∀ z : ℝ, (z * Real.sqrt 2) * (z * Real.sqrt 2) = 2 * z * z := by
    intro z
    have := sqrt2_sq
    ring_nf
    nlinarith [sqrt2_sq]
  by_cases hdpos : 0 < d
  · have hdR : (0 : ℝ) < (d : ℝ) := by exact_mod_cast hdpos
    simp only [hdpos, if_pos]
    constructor
    · intro h
      rcases Bool.or_eq_true_iff.mp h with h' | h'
      · have he0 : e ≤ 0 := of_decide_eq_true h'
        have hle : (e : ℝ) * Real.sqrt 2 ≤ 0 :=
          mul_nonpos_of_nonpos_of_nonneg (by exact_mod_cast he0) (le_of_lt sqrt2_pos)
        linarith
      · have h2 : 2 * e * e < d * d := of_decide_eq_true h'
        have h2R : 2 * (e : ℝ) * e < (d : ℝ) * d := by exact_mod_cast h2
        by_cases he0 : e ≤ 0
        · have hle : (e : ℝ) * Real.sqrt 2 ≤ 0 :=
            mul_nonpos_of_nonpos_of_nonneg (by exact_mod_cast he0) (le_of_lt sqrt2_pos)
          linarith
        · push_neg at he0
          have heR : (0 : ℝ) < (e : ℝ) := by exact_mod_cast he0
          have hx : (0 : ℝ) ≤ (e : ℝ) * Real.sqrt 2 :=
            le_of_lt (mul_pos heR sqrt2_pos)
          refine lt_of_sq_lt_sq' hx (le_of_lt hdR) ?_
          rw [hsq]
          exact h2R
    · intro h
      by_cases he0 : e ≤ 0
      · exact Bool.or_eq_true_iff.mpr (Or.inl (decide_eq_true he0))
      · push_neg at he0
        refine Bool.or_eq_true_iff.mpr (Or.inr (decide_eq_true ?_))
        have heR : (0 : ℝ) < (e : ℝ) := by exact_mod_cast he0
        have hx : (0 : ℝ) ≤ (e : ℝ) * Real.sqrt 2 :=
          le_of_lt (mul_pos heR sqrt2_pos)
        have hmm := mul_self_lt_mul_self hx h
        rw [hsq] at hmm
        have : (2 : ℝ) * (e : ℝ) * e < (d : ℝ) * d := hmm
        exact_mod_cast this
  · push_neg at hdpos
    have hdR : (d : ℝ) ≤ 0 := by exact_mod_cast hdpos
    rw [if_neg (not_lt.mpr hdpos)]
    constructor
    · intro h
      rcases Bool.and_eq_true_iff.mp h with ⟨h1, h2⟩
      have he0 : e < 0 := of_decide_eq_true h1
      have h2' : d * d < 2 * e * e := of_decide_eq_true h2
      have heR : (e : ℝ) < 0 := by exact_mod_cast he0
      have h2R : (d : ℝ) * d < 2 * e * e := by exact_mod_cast h2'
      -- show  e√2 < d  via  -d < -e√2
      have hnd : (0 : ℝ) ≤ -(d : ℝ) := by linarith
      have hne : (0 : ℝ) < -((e : ℝ) * Real.sqrt 2) := by
        have : (e : ℝ) * Real.sqrt 2 < 0 :=
          mul_neg_of_neg_of_pos heR sqrt2_pos
        linarith
      have : -(d : ℝ) < -((e : ℝ) * Real.sqrt 2) := by
        refine lt_of_sq_lt_sq' hnd (le_of_lt hne) ?_
        have hrw : (-((e : ℝ) * Real.sqrt 2)) * (-((e : ℝ) * Real.sqrt 2)) =
            2 * (e : ℝ) * e := by
          have := hsq (e : ℝ)
          nlinarith [hsq (e : ℝ)]
        rw [hrw]
        nlinarith [h2R]
      linarith
    · intro h
      have he0 : e < 0 := by
        by_contra he0
        push_neg at he0
        have : (0 : ℝ) ≤ (e : ℝ) * Real.sqrt 2 :=
          mul_nonneg (by exact_mod_cast he0) (le_of_lt sqrt2_pos)
        linarith
      refine Bool.and_eq_true_iff.mpr ⟨decide_eq_true he0, decide_eq_true ?_⟩
      have heR : (e : ℝ) < 0 := by exact_mod_cast he0
      have hne : (0 : ℝ) ≤ -((e : ℝ) * Real.sqrt 2) := by
        have : (e : ℝ) * Real.sqrt 2 < 0 :=
          mul_neg_of_neg_of_pos heR sqrt2_pos
        linarith
      have hlt : -(d : ℝ) < -((e : ℝ) * Real.sqrt 2) := by linarith
      have hmm := mul_self_lt_mul_self (by linarith : (0:ℝ) ≤ -(d:ℝ)) hlt
      have hrw : (-((e : ℝ) * Real.sqrt 2)) * (-((e : ℝ) * Real.sqrt 2)) =
          2 * (e : ℝ) * e := by
        nlinarith [hsq (e : ℝ)]
      rw [hrw] at hmm
      have : (d : ℝ) * d < 2 * (e : ℝ) * e := by nlinarith [hmm]
      exact_mod_cast this

lemma PLen.lt_zero (w : PLen) : PLen.lt w (0, 0) = false := by
  by_contra h
  have h' : PLen.lt w (0, 0) = true := by
    revert h; cases PLen.lt w (0, 0) <;> simp
  have h1 := (PLen.lt_iff w (0, 0)).mp h'
  have h2 := PLen.toReal_nonneg w
  have h3 : PLen.toReal (0, 0) = 0 := by
    unfold PLen.toReal; norm_num
  linarith

lemma PLen.lt_self (w : PLen) : PLen.lt w w = false := by
  by_contra h
  have h' : PLen.lt w w = true := by
    revert h; cases PLen.lt w w <;> simp
  exact absurd ((PLen.lt_iff w w).mp h') (lt_irrefl _)

lemma stepCost_toReal_pos (δ : Int × Int) : 0 < (stepCost δ).toReal := by
  unfold stepCost PLen.toReal
  split <;> simp [sqrt2_pos]

/-- Relaxation never improves on a distance that is already `0`. -/
lemma ltD_fin_zero (nd : PLen) : D.ltD nd (.fin (0, 0)) = false :=
  PLen.lt_zero nd

/-- Once a relaxation target has been lowered below the candidate value, the
candidate no longer improves it. -/
lemma ltD_stable {nd' nd : PLen} {d : D}
    (h1 : D.ltD nd' d = false) (h2 : D.ltD nd d = true) :
    D.ltD nd' (.fin nd) = false := by
  cases d with
  | nan => simp [D.ltD] at h2
  | max => simp [D.ltD] at h1
  | fin v =>
    simp only [D.ltD] at h1 h2 ⊢
    by_contra h
    have h' : PLen.lt nd' nd = true := by
      revert h; cases PLen.lt nd' nd <;> simp
    have a1 : ¬ nd'.toReal < v.toReal := by
      intro hc
      rw [← PLen.lt_iff] at hc
      rw [hc] at h1
      exact absurd h1 (by simp)
    have a2 := (PLen.lt_iff nd v).mp h2
    have a3 := (PLen.lt_iff nd' nd).mp h'
    push_neg at a1
    linarith

end Geowartry

namespace Geowartry

/-! ## Board access lemmas (`DistMap.getC` / `DistMap.setC`) -/

lemma getD_set_other {α : Type} (l : List α) (i j : Nat) (h : i ≠ j) (v : α)
    (d : α) : (l.set i v).getD j d = l.getD j d := by
  induction l generalizing i j with
  | nil => simp [List.set]
  | cons a t ih =>
    cases i with
    | zero =>
      cases j with
      | zero => exact absurd rfl h
      | succ n => simp [List.set, List.getD]
    | succ m =>
      cases j with
      | zero => simp [List.set, List.getD]
      | succ n =>
        simp only [List.set, List.getD_cons_succ]
        exact ih m n (by omega)

lemma getD_set_same {α : Type} (l : List α) (i : Nat) (h : i < l.length)
    (v : α) (d : α) : (l.set i v).getD i d = v := by
  induction l generalizing i with
  | nil => simp at h
  | cons a t ih =>
    cases i with
    | zero => simp [List.set, List.getD]
    | succ m =>
      simp only [List.set, List.getD_cons_succ]
      exact ih m (by simpa using h)

lemma getD_mem {α : Type} (l : List α) (i : Nat) (h : i < l.length) (d : α) :
    l.getD i d ∈ l := by
  induction l generalizing i with
  | nil => simp at h
  | cons a t ih =>
    cases i with
    | zero => simp [List.getD]
    | succ m =>
      simp only [List.getD_cons_succ]
      exact List.mem_cons_of_mem _ (ih m (by simpa using h))

/-- In-bounds coordinates give valid column and row indices. -/
lemma inBounds_toNat {c : Coord} (hc : inBounds c = true) :
    c.1.toNat < 15 ∧ c.2.toNat < 10 ∧ 0 ≤ c.1 ∧ 0 ≤ c.2 := by
  simp only [inBounds, BOARD_COLUMN, BOARD_ROW, Bool.and_eq_true,
    decide_eq_true_eq] at hc
  omega

/-- Distinct in-bounds coordinates give distinct index pairs. -/
lemma inBounds_toNat_inj {c c' : Coord} (hc : inBounds c = true)
    (hc' : inBounds c' = true)
    (h : c.1.toNat = c'.1.toNat ∧ c.2.toNat = c'.2.toNat) : c = c' := by
  obtain ⟨_, _, hc1, hc2⟩ := inBounds_toNat hc
  obtain ⟨_, _, hc1', hc2'⟩ := inBounds_toNat hc'
  obtain ⟨h1, h2⟩ := h
  have e1 : c.1 = c'.1 := by omega
  have e2 : c.2 = c'.2 := by omega
  exact Prod.ext e1 e2

lemma Shape.col_len {m : DistMap} (hS : m.Shape) {i : Nat} (hi : i < 15) :
    (m.getD i []).length = 10 := by
  obtain ⟨hlen, hcols⟩ := hS
  exact hcols _ (getD_mem m i (by omega) [])

lemma getC_setC_same {m : DistMap} (hS : m.Shape) {c : Coord}
    (hc : inBounds c = true) (v : D) : (m.setC c v).getC c = v := by
  obtain ⟨h1, h2, _, _⟩ := inBounds_toNat hc
  unfold DistMap.getC DistMap.setC
  rw [getD_set_same m c.1.toNat (by have := hS.1; omega) _ []]
  exact getD_set_same _ c.2.toNat (by rw [Shape.col_len hS h1]; omega) _ _

lemma getC_setC_other {m : DistMap} (hS : m.Shape) {c c' : Coord}
    (hc : inBounds c = true) (hc' : inBounds c' = true) (hne : c' ≠ c)
    (v : D) : (m.setC c v).getC c' = m.getC c' := by
  obtain ⟨h1, h2, _, _⟩ := inBounds_toNat hc
  obtain ⟨h1', h2', _, _⟩ := inBounds_toNat hc'
  unfold DistMap.getC DistMap.setC
  by_cases hcol : c'.1.toNat = c.1.toNat
  · have hrow : c'.2.toNat ≠ c.2.toNat := by
      intro hrow
      exact hne (inBounds_toNat_inj hc' hc ⟨hcol, hrow⟩)
    rw [hcol, getD_set_same m c.1.toNat (by have := hS.1; omega) _ []]
    exact getD_set_other _ c.2.toNat c'.2.toNat (by omega) _ _
  · rw [getD_set_other m c.1.toNat c'.1.toNat (by omega) _ []]

lemma Shape.setC {m : DistMap} (hS : m.Shape) {c : Coord}
    (hc : inBounds c = true) (v : D) : (m.setC c v).Shape := by
  obtain ⟨h1, h2, _, _⟩ := inBounds_toNat hc
  obtain ⟨hlen, hcols⟩ := hS
  refine ⟨by rw [DistMap.setC, List.length_set]; exact hlen, ?_⟩
  intro col hcol
  rcases List.mem_or_eq_of_mem_set hcol with h | h
  · exact hcols _ h
  · subst h
    rw [List.length_set]
    exact Shape.col_len ⟨hlen, hcols⟩ h1

lemma Shape.resetDist {m : DistMap} (hS : m.Shape) : (resetDist m).Shape := by
  obtain ⟨hlen, hcols⟩ := hS
  refine ⟨by simpa [Geowartry.resetDist] using hlen, ?_⟩
  intro col hcol
  simp only [Geowartry.resetDist, List.mem_map] at hcol
  obtain ⟨col₀, hmem, rfl⟩ := hcol
  simpa using hcols _ hmem

lemma getD_map {α β : Type} (f : α → β) (l : List α) (i : Nat)
    (h : i < l.length) (d : β) (d' : α) :
    (l.map f).getD i d = f (l.getD i d') := by
  induction l generalizing i with
  | nil => simp at h
  | cons a t ih =>
    cases i with
    | zero => simp [List.getD]
    | succ n =>
      simp only [List.map, List.getD_cons_succ]
      exact ih n (by simpa using h)

lemma getD_replicate {α : Type} (n : Nat) (a : α) (i : Nat) (h : i < n)
    (d : α) : (List.replicate n a).getD i d = a := by
  induction n generalizing i with
  | zero => omega
  | succ k ih =>
    cases i with
    | zero => simp [List.replicate, List.getD]
    | succ m =>
      simp only [List.replicate, List.getD_cons_succ]
      exact ih m (by omega)

lemma getC_resetDist {m : DistMap} (hS : m.Shape) {c : Coord}
    (hc : inBounds c = true) : (resetDist m).getC c = D.max := by
  obtain ⟨h1, h2, _, _⟩ := inBounds_toNat hc
  have hcollen : (m.getD c.1.toNat []).length = 10 := Shape.col_len hS h1
  unfold DistMap.getC resetDist
  rw [getD_map _ m c.1.toNat (by have := hS.1; omega) [] []]
  exact getD_map _ _ c.2.toNat (by omega) _ D.nan

lemma initDistMap_shape : initDistMap.Shape := by
  constructor
  · simp [initDistMap]
  · intro col hcol
    rw [List.eq_of_mem_replicate hcol]
    simp

lemma getC_initDistMap {c : Coord} (hc : inBounds c = true) :
    initDistMap.getC c = D.nan := by
  obtain ⟨h1, h2, _, _⟩ := inBounds_toNat hc
  unfold DistMap.getC initDistMap
  rw [getD_replicate 15 _ c.1.toNat h1 []]
  exact getD_replicate 10 _ c.2.toNat h2 _

end Geowartry

namespace Geowartry

/-! ## Paths and the relaxation invariant -/

/-- A valid path from `src` under the solver's step rule: each step moves by
one of the eight offsets to an in-bounds passable cell, without cutting a
corner whose two orthogonal cells are both impassable, and accumulates the
orthogonal/diagonal step costs.  This is exactly the class of
"8-connected moves (orthogonal cost 1, diagonal cost √2) that never traverse
a corner-blocked diagonal" over passable cells. -/
inductive ValidPath (G : Grid) (src : Coord) : Coord → PLen → Prop where
  | nil : ValidPath G src src (0, 0)
  | cons {c : Coord} {w : PLen} {δ : Int × Int} (hp : ValidPath G src c w)
      (hδ : δ ∈ dirs) (hok : stepOk G c δ = true) :
      ValidPath G src (c.1 + δ.1, c.2 + δ.2) (w.add (stepCost δ))

/-- `relaxDir` in guarded form: it does nothing unless the step is admissible
(`stepOk`) and improves the target's distance, in which case it writes the
improved distance and pushes the target. -/
lemma relaxDir_eq (G : Grid) (x y : Int) (dv : PLen) (s : SState)
    (δ : Int × Int) :
    relaxDir G x y dv s δ =
      if stepOk G (x, y) δ = true ∧
          D.ltD (dv.add (stepCost δ)) (s.dist.getC (x + δ.1, y + δ.2)) = true then
        { dist := s.dist.setC (x + δ.1, y + δ.2) (.fin (dv.add (stepCost δ)))
          queue := s.queue ++ [((x + δ.1, y + δ.2), dv.add (stepCost δ))] }
      else s := by
  unfold relaxDir stepOk
  cases hb : inBounds (x + δ.1, y + δ.2) with
  | false => simp [hb]
  | true =>
    cases hp : (G (x + δ.1, y + δ.2)).isPassable with
    | false => simp [hb, hp]
    | true =>
      by_cases hd : δ.1 * δ.2 ≠ 0
      · cases h1 : (G (x, y + δ.2)).isPassable with
        | false =>
          cases h2 : (G (x + δ.1, y)).isPassable with
          | false => simp [hb, hp, hd, h1, h2]
          | true =>
            cases hlt : D.ltD (dv.add (stepCost δ)) (s.dist.getC (x + δ.1, y + δ.2)) with
            | false => simp [hb, hp, hd, h1, h2, hlt]
            | true => simp [hb, hp, hd, h1, h2, hlt]
        | true =>
          cases hlt : D.ltD (dv.add (stepCost δ)) (s.dist.getC (x + δ.1, y + δ.2)) with
          | false => simp [hb, hp, hd, h1, hlt]
          | true => simp [hb, hp, hd, h1, hlt]
      · cases hlt : D.ltD (dv.add (stepCost δ)) (s.dist.getC (x + δ.1, y + δ.2)) with
        | false => simp [hb, hp, hd, hlt]
        | true => simp [hb, hp, hd, hlt]

/-- The target of an admissible step is in bounds and passable. -/
lemma stepOk_facts {G : Grid} {c : Coord} {δ : Int × Int}
    (h : stepOk G c δ = true) :
    inBounds (c.1 + δ.1, c.2 + δ.2) = true ∧
      (G (c.1 + δ.1, c.2 + δ.2)).isPassable = true := by
  simp only [stepOk, Bool.and_eq_true] at h
  exact ⟨h.1.1, h.1.2⟩

/-- Offsets in `dirs` are nonzero, so a step never stays in place. -/
lemma dirs_ne_zero {δ : Int × Int} (h : δ ∈ dirs) : ¬(δ.1 = 0 ∧ δ.2 = 0) := by
  fin_cases h <;> simp

end Geowartry

namespace Geowartry

/-- All facts preserved or established by a single neighbour relaxation. -/
lemma relaxDir_inv (G : Grid) (dest : Coord) (x y : Int) (dv : PLen)
    (hpath : ValidPath G dest (x, y) dv) (s : SState) (δ : Int × Int)
    (hδ : δ ∈ dirs)
    (hShape : s.dist.Shape)
    (hqb : ∀ e ∈ s.queue, inBounds e.1 = true)
    (hqp : ∀ e ∈ s.queue, ValidPath G dest e.1 e.2)
    (hdp : ∀ c w, inBounds c = true → s.dist.getC c = .fin w →
      ValidPath G dest c w)
    (hnn : ∀ c, inBounds c = true → s.dist.getC c ≠ .nan) :
    ∀ s', s' = relaxDir G x y dv s δ →
    s'.dist.Shape ∧
    (∀ e ∈ s.queue, e ∈ s'.queue) ∧
    (∀ e ∈ s'.queue, inBounds e.1 = true) ∧
    (∀ e ∈ s'.queue, ValidPath G dest e.1 e.2) ∧
    (∀ c w, inBounds c = true → s'.dist.getC c = .fin w →
      ValidPath G dest c w) ∧
    (∀ c, inBounds c = true → s'.dist.getC c ≠ .nan) ∧
    (∀ c nd, inBounds c = true → D.ltD nd (s.dist.getC c) = false →
      D.ltD nd (s'.dist.getC c) = false) ∧
    (∀ c w, inBounds c = true → s'.dist.getC c = .fin w →
      s.dist.getC c = .fin w ∨ (c, w) ∈ s'.queue) ∧
    (∀ c, inBounds c = true → s.dist.getC c = .fin (0, 0) →
      s'.dist.getC c = .fin (0, 0)) ∧
    (stepOk G (x, y) δ = true →
      D.ltD (dv.add (stepCost δ)) (s'.dist.getC (x + δ.1, y + δ.2)) = false) := by
  intro s' hs'
  rw [relaxDir_eq] at hs'
  by_cases hcond : stepOk G (x, y) δ = true ∧
      D.ltD (dv.add (stepCost δ)) (s.dist.getC (x + δ.1, y + δ.2)) = true
  · rw [if_pos hcond] at hs'
    obtain ⟨hok, hlt⟩ := hcond
    obtain ⟨ht_in, ht_pass⟩ := stepOk_facts hok
    set t : Coord := (x + δ.1, y + δ.2) with htdef
    set nd : PLen := dv.add (stepCost δ) with hnddef
    have hpatht : ValidPath G dest t nd := ValidPath.cons hpath hδ hok
    have hget_same : s'.dist.getC t = .fin nd := by
      rw [hs']; exact getC_setC_same hShape ht_in _
    have hget_other : ∀ c, inBounds c = true → c ≠ t →
        s'.dist.getC c = s.dist.getC c := by
      intro c hc hne
      rw [hs']; exact getC_setC_other hShape ht_in hc hne _
    refine ⟨?_, ?_, ?_, ?_, ?_, ?_, ?_, ?_, ?_, ?_⟩
    · rw [hs']; exact Shape.setC hShape ht_in _
    · intro e he; rw [hs']; exact List.mem_append_left _ he
    · intro e he
      rw [hs'] at he
      rcases List.mem_append.mp he with h | h
      · exact hqb e h
      · simp only [List.mem_singleton] at h
        rw [h]; exact ht_in
    · intro e he
      rw [hs'] at he
      rcases List.mem_append.mp he with h | h
      · exact hqp e h
      · simp only [List.mem_singleton] at h
        rw [h]; exact hpatht
    · intro c w hc hw
      by_cases hct : c = t
      · subst hct
        rw [hget_same] at hw
        cases hw
        exact hpatht
      · exact hdp c w hc (by rw [← hget_other c hc hct]; exact hw)
    · intro c hc
      by_cases hct : c = t
      · subst hct; rw [hget_same]; simp
      · rw [hget_other c hc hct]; exact hnn c hc
    · intro c nd' hc hfalse
      by_cases hct : c = t
      · subst hct
        rw [hget_same]
        exact ltD_stable hfalse hlt
      · rw [hget_other c hc hct]; exact hfalse
    · intro c w hc hw
      by_cases hct : c = t
      · subst hct
        rw [hget_same] at hw
        cases hw
        right
        rw [hs']
        exact List.mem_append_right _ (List.mem_singleton.mpr rfl)
      · left; rw [← hget_other c hc hct]; exact hw
    · intro c hc hzero
      by_cases hct : c = t
      · subst hct
        rw [hzero] at hlt
        rw [ltD_fin_zero] at hlt
        cases hlt
      · rw [hget_other c hc hct]; exact hzero
    · intro _
      rw [hget_same]
      simp only [D.ltD]
      exact PLen.lt_self nd
  · rw [if_neg hcond] at hs'
    subst hs'
    refine ⟨hShape, fun e he => he, hqb, hqp, hdp, hnn,
      fun c nd _ h => h, fun c w _ h => Or.inl h, fun c _ h => h, ?_⟩
    intro hok
    by_cases hlt : D.ltD (dv.add (stepCost δ)) (s'.dist.getC (x + δ.1, y + δ.2)) = true
    · exact absurd ⟨hok, hlt⟩ hcond
    · simpa using hlt

end Geowartry

namespace Geowartry

/-- The facts of `relaxDir_inv`, carried through a fold over any sublist of
the eight offsets. -/
lemma relaxFold_inv (G : Grid) (dest : Coord) (x y : Int) (dv : PLen)
    (hpath : ValidPath G dest (x, y) dv) :
    ∀ (L : List (Int × Int)), (∀ δ ∈ L, δ ∈ dirs) → ∀ s : SState,
    s.dist.Shape →
    (∀ e ∈ s.queue, inBounds e.1 = true) →
    (∀ e ∈ s.queue, ValidPath G dest e.1 e.2) →
    (∀ c w, inBounds c = true → s.dist.getC c = .fin w →
      ValidPath G dest c w) →
    (∀ c, inBounds c = true → s.dist.getC c ≠ .nan) →
    ∀ s', s' = L.foldl (relaxDir G x y dv) s →
    s'.dist.Shape ∧
    (∀ e ∈ s.queue, e ∈ s'.queue) ∧
    (∀ e ∈ s'.queue, inBounds e.1 = true) ∧
    (∀ e ∈ s'.queue, ValidPath G dest e.1 e.2) ∧
    (∀ c w, inBounds c = true → s'.dist.getC c = .fin w →
      ValidPath G dest c w) ∧
    (∀ c, inBounds c = true → s'.dist.getC c ≠ .nan) ∧
    (∀ c nd, inBounds c = true → D.ltD nd (s.dist.getC c) = false →
      D.ltD nd (s'.dist.getC c) = false) ∧
    (∀ c w, inBounds c = true → s'.dist.getC c = .fin w →
      s.dist.getC c = .fin w ∨ (c, w) ∈ s'.queue) ∧
    (∀ c, inBounds c = true → s.dist.getC c = .fin (0, 0) →
      s'.dist.getC c = .fin (0, 0)) ∧
    (∀ δ ∈ L, stepOk G (x, y) δ = true →
      D.ltD (dv.add (stepCost δ)) (s'.dist.getC (x + δ.1, y + δ.2)) = false) := by
  intro L
  induction L with
  | nil =>
    intro _ s hShape hqb hqp hdp hnn s' hs'
    simp only [List.foldl_nil] at hs'
    subst hs'
    exact ⟨hShape, fun e he => he, hqb, hqp, hdp, hnn, fun c nd _ h => h,
      fun c w _ h => Or.inl h, fun c _ h => h, by simp⟩
  | cons δ L ih =>
    intro hL s hShape hqb hqp hdp hnn s' hs'
    simp only [List.foldl_cons] at hs'
    have hδ : δ ∈ dirs := hL δ (by simp)
    obtain ⟨sh1, qg1, qb1, qp1, dp1, nn1, mono1, chg1, z1, ob1⟩ :=
      relaxDir_inv G dest x y dv hpath s δ hδ hShape hqb hqp hdp hnn
        (relaxDir G x y dv s δ) rfl
    obtain ⟨sh2, qg2, qb2, qp2, dp2, nn2, mono2, chg2, z2, ob2⟩ :=
      ih (fun δ' hδ' => hL δ' (by simp [hδ'])) (relaxDir G x y dv s δ)
        sh1 qb1 qp1 dp1 nn1 s' hs'
    refine ⟨sh2, ?_, qb2, qp2, dp2, nn2, ?_, ?_, ?_, ?_⟩
    · intro e he
      exact qg2 e (qg1 e he)
    · intro c nd hc h
      exact mono2 c nd hc (mono1 c nd hc h)
    · intro c w hc hw
      rcases chg2 c w hc hw with h | h
      · rcases chg1 c w hc h with h' | h'
        · exact Or.inl h'
        · exact Or.inr (qg2 _ h')
      · exact Or.inr h
    · intro c hc hz
      exact z2 c hc (z1 c hc hz)
    · intro δ' hδ' hok
      rcases List.mem_cons.mp hδ' with h | h
      · subst h
        exact mono2 _ _ (stepOk_facts hok).1 (ob1 hok)
      · exact ob2 δ' h hok

end Geowartry

namespace Geowartry

/-- The loop invariant of the relaxation: every queue entry is in bounds and
labelled with the length of a valid path from the destination; every stored
finite distance is the length of a valid path; no in-bounds cell is NaN; the
destination stays at `0`; and every cell holding a finite distance either
still has a matching queue entry or already satisfies the edge-stability
condition toward all its admissible neighbours. -/
structure Inv (G : Grid) (dest : Coord) (s : SState) : Prop where
  shape : s.dist.Shape
  queueBounds : ∀ e ∈ s.queue, inBounds e.1 = true
  queuePath : ∀ e ∈ s.queue, ValidPath G dest e.1 e.2
  distPath : ∀ c w, inBounds c = true → s.dist.getC c = .fin w →
    ValidPath G dest c w
  distNoNan : ∀ c, inBounds c = true → s.dist.getC c ≠ .nan
  destZero : s.dist.getC dest = .fin (0, 0)
  pending : ∀ c w, inBounds c = true → s.dist.getC c = .fin w →
    (c, w) ∈ s.queue ∨
    ∀ δ ∈ dirs, stepOk G c δ = true →
      D.ltD (w.add (stepCost δ)) (s.dist.getC (c.1 + δ.1, c.2 + δ.2)) = false

/-- Popping the head entry and relaxing its eight neighbours preserves the
invariant. -/
lemma Inv.pop {G : Grid} {dest : Coord} {s : SState} {x y : Int} {dv : PLen}
    {rest : List (Coord × PLen)} (hdest : inBounds dest = true)
    (hq : s.queue = ((x, y), dv) :: rest) (hinv : Inv G dest s) :
    Inv G dest (relaxCell G x y dv ⟨s.dist, rest⟩) := by
  have hpath : ValidPath G dest (x, y) dv := by
    have := hinv.queuePath ((x, y), dv) (by rw [hq]; simp)
    exact this
  have hrest_b : ∀ e ∈ rest, inBounds e.1 = true := by
    intro e he; exact hinv.queueBounds e (by rw [hq]; simp [he])
  have hrest_p : ∀ e ∈ rest, ValidPath G dest e.1 e.2 := by
    intro e he; exact hinv.queuePath e (by rw [hq]; simp [he])
  obtain ⟨sh, qg, qb, qp, dp, nn, mono, chg, z, ob⟩ :=
    relaxFold_inv G dest x y dv hpath dirs (fun δ h => h) ⟨s.dist, rest⟩
      hinv.shape hrest_b hrest_p hinv.distPath hinv.distNoNan
      (relaxCell G x y dv ⟨s.dist, rest⟩) rfl
  refine ⟨sh, qb, qp, dp, nn, ?_, ?_⟩
  · exact z dest hdest hinv.destZero
  · intro c w hc hw
    rcases chg c w hc hw with hold | hnew
    · -- the value was already there before this pop
      rcases hinv.pending c w hc hold with hmem | hstable
      · rw [hq] at hmem
        rcases List.mem_cons.mp hmem with hhead | htail
        · -- the popped entry was the matching one: stability established now
          right
          intro δ hδ hok
          have hcx : c = (x, y) := congrArg Prod.fst hhead
          have hwv : w = dv := congrArg Prod.snd hhead
          subst hcx; subst hwv
          exact ob δ hδ hok
        · exact Or.inl (qg _ htail)
      · -- stability is monotone under further relaxation
        right
        intro δ hδ hok
        exact mono _ _ (stepOk_facts hok).1 (hstable δ hδ hok)
    · exact Or.inl hnew

/-- Edge-stability of the final field: no admissible step could still improve
any neighbour. -/
def Stable (G : Grid) (m : DistMap) : Prop :=
  ∀ c w, inBounds c = true → m.getC c = .fin w →
    ∀ δ ∈ dirs, stepOk G c δ = true →
      D.ltD (w.add (stepCost δ)) (m.getC (c.1 + δ.1, c.2 + δ.2)) = false

/-- When `runSolve` drains the queue, the invariant yields a stable field in
which every finite distance is a valid path length, the destination is `0`,
and no in-bounds cell is NaN. -/
lemma runSolve_final {G : Grid} {dest : Coord} (hdest : inBounds dest = true) :
    ∀ (fuel : Nat) (s : SState) (final : DistMap), Inv G dest s →
    runSolve G fuel s = some final →
    final.Shape ∧
    (∀ c w, inBounds c = true → final.getC c = .fin w →
      ValidPath G dest c w) ∧
    (∀ c, inBounds c = true → final.getC c ≠ .nan) ∧
    final.getC dest = .fin (0, 0) ∧
    Stable G final := by
  intro fuel
  induction fuel with
  | zero =>
    intro s final hinv hrun
    unfold runSolve at hrun
    cases hq : s.queue with
    | cons e rest => rw [hq] at hrun; cases hrun
    | nil =>
      rw [hq] at hrun
      cases hrun
      refine ⟨hinv.shape, hinv.distPath, hinv.distNoNan, hinv.destZero, ?_⟩
      intro c w hc hw δ hδ hok
      rcases hinv.pending c w hc hw with hmem | hstable
      · rw [hq] at hmem; cases hmem
      · exact hstable δ hδ hok
  | succ n ih =>
    intro s final hinv hrun
    unfold runSolve at hrun
    cases hq : s.queue with
    | nil =>
      rw [hq] at hrun
      cases hrun
      refine ⟨hinv.shape, hinv.distPath, hinv.distNoNan, hinv.destZero, ?_⟩
      intro c w hc hw δ hδ hok
      rcases hinv.pending c w hc hw with hmem | hstable
      · rw [hq] at hmem; cases hmem
      · exact hstable δ hδ hok
    | cons e rest =>
      rw [hq] at hrun
      obtain ⟨⟨x, y⟩, dv⟩ := e
      exact ih _ final (Inv.pop hdest hq hinv) hrun

end Geowartry

namespace Geowartry

/-- Along any valid path from the destination, a stable field's stored
distance is finite and bounded by the path length. -/
lemma stable_le_path {G : Grid} {dest : Coord} {m : DistMap}
    (hdest : inBounds dest = true) (hzero : m.getC dest = .fin (0, 0))
    (hnn : ∀ c, inBounds c = true → m.getC c ≠ .nan) (hst : Stable G m) :
    ∀ {c : Coord} {w₀ : PLen}, ValidPath G dest c w₀ →
      inBounds c = true ∧
      ∃ v, m.getC c = .fin v ∧ v.toReal ≤ w₀.toReal := by
  intro c w₀ hp
  induction hp with
  | nil => exact ⟨hdest, (0, 0), hzero, le_refl _⟩
  | @cons b w δ hp hδ hok ih =>
    obtain ⟨hb_in, v, hv, hle⟩ := ih
    have ht_in := (stepOk_facts hok).1
    have hstab := hst b v hb_in hv δ hδ hok
    set t : Coord := (b.1 + δ.1, b.2 + δ.2)
    refine ⟨ht_in, ?_⟩
    cases hmt : m.getC t with
    | nan => exact absurd hmt (hnn t ht_in)
    | max =>
      rw [hmt] at hstab
      simp [D.ltD] at hstab
    | fin u =>
      refine ⟨u, rfl, ?_⟩
      rw [hmt] at hstab
      simp only [D.ltD] at hstab
      have hle2 : u.toReal ≤ (v.add (stepCost δ)).toReal := by
        by_contra hcon
        push_neg at hcon
        have := (PLen.lt_iff (v.add (stepCost δ)) u).mpr hcon
        rw [this] at hstab
        cases hstab
      have hsum : (v.add (stepCost δ)).toReal = v.toReal + (stepCost δ).toReal :=
        PLen.toReal_add _ _
      have hsum2 : (w.add (stepCost δ)).toReal = w.toReal + (stepCost δ).toReal :=
        PLen.toReal_add _ _
      rw [hsum2]
      rw [hsum] at hle2
      linarith

/-- `debug_calculate_distance`, on termination, computes exactly the shortest
valid-path distance of every cell reachable from the destination: the stored
value is the length of some valid path and is a lower bound for the length of
every valid path. -/
lemma distance_solve_correct {G : Grid} {dest : Coord} {prev : DistMap}
    {fuel : Nat} {final : DistMap} (hShape : prev.Shape)
    (hrun : debugCalculateDistance G dest prev fuel = some final) :
    ∀ c w₀, ValidPath G dest c w₀ →
      ∃ v, final.getC c = .fin v ∧ ValidPath G dest c v ∧
        ∀ w', ValidPath G dest c w' → v.toReal ≤ w'.toReal := by
  unfold debugCalculateDistance at hrun
  by_cases hdest : inBounds dest = true
  · rw [if_pos hdest] at hrun
    have hShape0 : ((resetDist prev).setC dest (.fin (0, 0))).Shape :=
      Shape.setC (Shape.resetDist hShape) hdest _
    have hget0 : ∀ c, inBounds c = true →
        ((resetDist prev).setC dest (.fin (0, 0))).getC c =
          if c = dest then .fin (0, 0) else .max := by
      intro c hc
      by_cases hcd : c = dest
      · subst hcd
        rw [if_pos rfl]
        exact getC_setC_same (Shape.resetDist hShape) hdest _
      · rw [if_neg hcd,
          getC_setC_other (Shape.resetDist hShape) hdest hc hcd,
          getC_resetDist hShape hc]
    have hinv : Inv G dest ⟨(resetDist prev).setC dest (.fin (0, 0)),
        [(dest, (0, 0))]⟩ := by
      refine ⟨hShape0, ?_, ?_, ?_, ?_, ?_, ?_⟩
      · intro e he
        simp only [List.mem_singleton] at he
        subst he; exact hdest
      · intro e he
        simp only [List.mem_singleton] at he
        subst he; exact ValidPath.nil
      · intro c w hc hw
        rw [hget0 c hc] at hw
        by_cases hcd : c = dest
        · rw [if_pos hcd] at hw
          cases hw
          subst hcd
          exact ValidPath.nil
        · rw [if_neg hcd] at hw; cases hw
      · intro c hc
        rw [hget0 c hc]
        by_cases hcd : c = dest
        · rw [if_pos hcd]; simp
        · rw [if_neg hcd]; simp
      · rw [hget0 dest hdest, if_pos rfl]
      · intro c w hc hw
        rw [hget0 c hc] at hw
        by_cases hcd : c = dest
        · rw [if_pos hcd] at hw
          cases hw
          subst hcd
          exact Or.inl (by simp)
        · rw [if_neg hcd] at hw; cases hw
    obtain ⟨hShF, hpathF, hnnF, hzeroF, hstF⟩ :=
      runSolve_final hdest fuel _ final hinv hrun
    intro c w₀ hp
    obtain ⟨hc_in, v, hv, hle⟩ := stable_le_path hdest hzeroF hnnF hstF hp
    refine ⟨v, hv, hpathF c v hc_in hv, ?_⟩
    intro w' hp'
    obtain ⟨_, v', hv', hle'⟩ := stable_le_path hdest hzeroF hnnF hstF hp'
    rw [hv] at hv'
    cases hv'
    exact hle'
  · rw [if_neg hdest] at hrun
    cases hrun

end Geowartry

namespace Geowartry

/-! ## What a solve does to impassable cells and to the destination -/

lemma relaxDir_shape {G : Grid} {x y : Int} {dv : PLen} {s : SState}
    {δ : Int × Int} (hS : s.dist.Shape) : (relaxDir G x y dv s δ).dist.Shape := by
  rw [relaxDir_eq]
  split
  · next h => exact Shape.setC hS (stepOk_facts h.1).1 _
  · exact hS

/-- A relaxation step never writes an impassable cell's distance. -/
lemma relaxDir_impassable {G : Grid} {x y : Int} {dv : PLen} {s : SState}
    {δ : Int × Int} {c : Coord} (hc : inBounds c = true)
    (hp : (G c).isPassable = false) (hS : s.dist.Shape) :
    (relaxDir G x y dv s δ).dist.getC c = s.dist.getC c := by
  rw [relaxDir_eq]
  split
  · next h =>
    have ⟨ht_in, ht_pass⟩ := stepOk_facts h.1
    have hne : c ≠ (x + δ.1, y + δ.2) := by
      intro heq
      rw [heq, ht_pass] at hp
      cases hp
    exact getC_setC_other hS ht_in hc hne _
  · rfl

lemma relaxCell_impassable {G : Grid} {x y : Int} {dv : PLen} {s : SState}
    {c : Coord} (hc : inBounds c = true) (hp : (G c).isPassable = false)
    (hS : s.dist.Shape) :
    (relaxCell G x y dv s).dist.getC c = s.dist.getC c ∧
      (relaxCell G x y dv s).dist.Shape := by
  unfold relaxCell
  generalize dirs = L
  induction L generalizing s with
  | nil => exact ⟨rfl, hS⟩
  | cons δ L ih =>
    simp only [List.foldl_cons]
    obtain ⟨h1, h2⟩ := ih (s := relaxDir G x y dv s δ) (relaxDir_shape hS)
    exact ⟨by rw [h1, relaxDir_impassable hc hp hS], h2⟩

lemma runSolve_impassable {G : Grid} {c : Coord} (hc : inBounds c = true)
    (hp : (G c).isPassable = false) :
    ∀ (fuel : Nat) (s : SState) (final : DistMap), s.dist.Shape →
    runSolve G fuel s = some final → final.getC c = s.dist.getC c := by
  intro fuel
  induction fuel with
  | zero =>
    intro s final hS hrun
    unfold runSolve at hrun
    cases hq : s.queue with
    | cons e rest => rw [hq] at hrun; cases hrun
    | nil => rw [hq] at hrun; cases hrun; rfl
  | succ n ih =>
    intro s final hS hrun
    unfold runSolve at hrun
    cases hq : s.queue with
    | nil => rw [hq] at hrun; cases hrun; rfl
    | cons e rest =>
      rw [hq] at hrun
      obtain ⟨⟨x, y⟩, dv⟩ := e
      obtain ⟨h1, h2⟩ := relaxCell_impassable (s := ⟨s.dist, rest⟩) hc hp hS
      rw [ih _ final h2 hrun, h1]

/-- The distance field right after the reset-and-seed phase. -/
lemma getC_reset0 {prev : DistMap} {dest : Coord} (hShape : prev.Shape)
    (hdest : inBounds dest = true) {c : Coord} (hc : inBounds c = true) :
    ((resetDist prev).setC dest (.fin (0, 0))).getC c =
      if c = dest then .fin (0, 0) else .max := by
  by_cases hcd : c = dest
  · subst hcd
    rw [if_pos rfl]
    exact getC_setC_same (Shape.resetDist hShape) hdest _
  · rw [if_neg hcd,
      getC_setC_other (Shape.resetDist hShape) hdest hc hcd,
      getC_resetDist hShape hc]

/-- A solve — for any destination, passable or not — overwrites the whole
field: every impassable non-destination cell ends at `f32::MAX`, and the
destination cell ends at `0`. -/
lemma solve_overwrites {G : Grid} {dest : Coord} {prev : DistMap}
    {fuel : Nat} {final : DistMap} (hShape : prev.Shape)
    (hrun : debugCalculateDistance G dest prev fuel = some final) :
    final.getC dest = .fin (0, 0) ∧
    ∀ c, inBounds c = true → (G c).isPassable = false → c ≠ dest →
      final.getC c = .max := by
  unfold debugCalculateDistance at hrun
  by_cases hdest : inBounds dest = true
  · rw [if_pos hdest] at hrun
    have hShape0 : ((resetDist prev).setC dest (.fin (0, 0))).Shape :=
      Shape.setC (Shape.resetDist hShape) hdest _
    constructor
    · -- destination: via the invariant (which does not need passability)
      have hinv : Inv G dest ⟨(resetDist prev).setC dest (.fin (0, 0)),
          [(dest, (0, 0))]⟩ := by
        refine ⟨hShape0, ?_, ?_, ?_, ?_, ?_, ?_⟩
        · intro e he
          simp only [List.mem_singleton] at he
          subst he; exact hdest
        · intro e he
          simp only [List.mem_singleton] at he
          subst he; exact ValidPath.nil
        · intro c w hc hw
          rw [getC_reset0 hShape hdest hc] at hw
          by_cases hcd : c = dest
          · rw [if_pos hcd] at hw
            cases hw
            subst hcd
            exact ValidPath.nil
          · rw [if_neg hcd] at hw; cases hw
        · intro c hc
          rw [getC_reset0 hShape hdest hc]
          by_cases hcd : c = dest
          · rw [if_pos hcd]; simp
          · rw [if_neg hcd]; simp
        · rw [getC_reset0 hShape hdest hdest, if_pos rfl]
        · intro c w hc hw
          rw [getC_reset0 hShape hdest hc] at hw
          by_cases hcd : c = dest
          · rw [if_pos hcd] at hw
            cases hw
            subst hcd
            exact Or.inl (by simp)
          · rw [if_neg hcd] at hw; cases hw
      exact (runSolve_final hdest fuel _ final hinv hrun).2.2.2.1
    · intro c hc hp hcd
      rw [runSolve_impassable hc hp fuel _ final hShape0 hrun]
      rw [getC_reset0 hShape hdest hc, if_neg hcd]
  · rw [if_neg hdest] at hrun
    cases hrun

end Geowartry

namespace Geowartry

/-! ## Characterisation of `get_reachable_adjacent_cells` -/

/-- The loop body of `get_reachable_adjacent_cells` keeps exactly the
`stepOk` targets. -/
lemma reach_body_eq (G : Grid) (c : Coord) (ret : List Coord)
    (δ : Int × Int) :
    (let nc := c.1 + δ.1
     let nr := c.2 + δ.2
     if !inBounds (nc, nr) then ret
     else if !(G (nc, nr)).isPassable then ret
     else if (nc - c.1) * (nr - c.2) ≠ 0 && !(G (nc, c.2)).isPassable &&
         !(G (c.1, nr)).isPassable then ret
     else ret ++ [(nc, nr)]) =
      if stepOk G c δ = true then ret ++ [(c.1 + δ.1, c.2 + δ.2)] else ret := by
  have hsub1 : c.1 + δ.1 - c.1 = δ.1 := by ring
  have hsub2 : c.2 + δ.2 - c.2 = δ.2 := by ring
  simp only [hsub1, hsub2]
  unfold stepOk
  cases hb : inBounds (c.1 + δ.1, c.2 + δ.2) with
  | false => simp [hb]
  | true =>
    cases hp : (G (c.1 + δ.1, c.2 + δ.2)).isPassable with
    | false => simp [hb, hp]
    | true =>
      by_cases hd : δ.1 * δ.2 ≠ 0
      · cases h1 : (G (c.1 + δ.1, c.2)).isPassable with
        | false =>
          cases h2 : (G (c.1, c.2 + δ.2)).isPassable with
          | false => simp [hb, hp, hd, h1, h2]
          | true => simp [hb, hp, hd, h1, h2]
        | true => simp [hb, hp, hd, h1]
      · simp [hb, hp, hd]

/-- `get_reachable_adjacent_cells` is the list of `stepOk` targets in `dirs`
order. -/
lemma reach_eq (G : Grid) (c : Coord) :
    getReachableAdjacentCells G c =
      (dirs.filter (fun δ => stepOk G c δ)).map
        (fun δ => (c.1 + δ.1, c.2 + δ.2)) := by
  unfold getReachableAdjacentCells
  have key : ∀ (L : List (Int × Int)) (acc : List Coord),
      L.foldl (fun ret δ =>
        let nc := c.1 + δ.1
        let nr := c.2 + δ.2
        if !inBounds (nc, nr) then ret
        else if !(G (nc, nr)).isPassable then ret
        else if (nc - c.1) * (nr - c.2) ≠ 0 && !(G (nc, c.2)).isPassable &&
            !(G (c.1, nr)).isPassable then ret
        else ret ++ [(nc, nr)]) acc =
      acc ++ (L.filter (fun δ => stepOk G c δ)).map
        (fun δ => (c.1 + δ.1, c.2 + δ.2)) := by
    intro L
    induction L with
    | nil => intro acc; simp
    | cons δ L ih =>
      intro acc
      simp only [List.foldl_cons]
      rw [reach_body_eq G c acc δ]
      by_cases hok : stepOk G c δ = true
      · rw [if_pos hok, ih]
        simp [List.filter_cons, hok]
      · rw [if_neg hok, ih]
        have : stepOk G c δ = false := by
          revert hok; cases stepOk G c δ <;> simp
        simp [List.filter_cons, this]
  exact key dirs []

lemma mem_reach_iff {G : Grid} {c n : Coord} :
    n ∈ getReachableAdjacentCells G c ↔
      ∃ δ ∈ dirs, stepOk G c δ = true ∧ n = (c.1 + δ.1, c.2 + δ.2) := by
  rw [reach_eq]
  simp only [List.mem_map, List.mem_filter]
  constructor
  · rintro ⟨δ, ⟨hδ, hok⟩, rfl⟩
    exact ⟨δ, hδ, hok, rfl⟩
  · rintro ⟨δ, hδ, hok, rfl⟩
    exact ⟨δ, ⟨hδ, hok⟩, rfl⟩

/-- For a fixed offset, membership of its target is exactly `stepOk`. -/
lemma mem_reach_offset {G : Grid} {c : Coord} {δ : Int × Int}
    (hδ : δ ∈ dirs) :
    (c.1 + δ.1, c.2 + δ.2) ∈ getReachableAdjacentCells G c ↔
      stepOk G c δ = true := by
  rw [mem_reach_iff]
  constructor
  · rintro ⟨δ', hδ', hok', heq⟩
    have h1 : δ'.1 = δ.1 := by
      have := congrArg Prod.fst heq
      simpa using this.symm
    have h2 : δ'.2 = δ.2 := by
      have := congrArg Prod.snd heq
      simpa using this.symm
    have : δ' = δ := Prod.ext h1 h2
    rw [← this]
    exact hok'
  · intro hok
    exact ⟨δ, hδ, hok, rfl⟩

/-- `stepOk` failure for a diagonal offset, spelled out. -/
lemma stepOk_false_iff_diag {G : Grid} {c : Coord} {δ : Int × Int}
    (hdiag : δ.1 * δ.2 ≠ 0) :
    stepOk G c δ = false ↔
      inBounds (c.1 + δ.1, c.2 + δ.2) = false ∨
      (G (c.1 + δ.1, c.2 + δ.2)).isPassable = false ∨
      ((G (c.1, c.2 + δ.2)).isPassable = false ∧
        (G (c.1 + δ.1, c.2)).isPassable = false) := by
  unfold stepOk
  cases hb : inBounds (c.1 + δ.1, c.2 + δ.2) with
  | false => simp [hb]
  | true =>
    cases hp : (G (c.1 + δ.1, c.2 + δ.2)).isPassable with
    | false => simp [hb, hp]
    | true =>
      cases h1 : (G (c.1, c.2 + δ.2)).isPassable with
      | false =>
        cases h2 : (G (c.1 + δ.1, c.2)).isPassable with
        | false => simp [hb, hp, hdiag, h1, h2]
        | true => simp [hb, hp, hdiag, h1, h2]
      | true => simp [hb, hp, hdiag, h1]

/-- The solver's relaxation loop skips a corner-blocked diagonal entirely. -/
lemma relaxDir_corner_blocked {G : Grid} {x y : Int} {dv : PLen} {s : SState}
    {δ : Int × Int} (hdiag : δ.1 * δ.2 ≠ 0)
    (h1 : (G (x, y + δ.2)).isPassable = false)
    (h2 : (G (x + δ.1, y)).isPassable = false) :
    relaxDir G x y dv s δ = s := by
  rw [relaxDir_eq]
  rw [if_neg]
  rintro ⟨hok, -⟩
  have hfalse : stepOk G (x, y) δ = false :=
    (stepOk_false_iff_diag hdiag).mpr (Or.inr (Or.inr ⟨h1, h2⟩))
  rw [hfalse] at hok
  cases hok

end Geowartry

namespace Geowartry

/-! ## Direction-pass branch lemmas -/

/-- Real value of a `Q2` scalar. -/
noncomputable def Q2.toReal (x : Q2) : ℝ :=
  ((x.a : ℝ) + (x.b : ℝ) * Real.sqrt 2) / (x.den : ℝ)

lemma Q2.toReal_ofInt (n : Int) : (Q2.ofInt n).toReal = (n : ℝ) := by
  unfold Q2.toReal Q2.ofInt
  simp

/-- Once the 8-candidate loop reaches the destination, it discards the
accumulated blend and returns the single offset toward the destination. -/
lemma blendLoop_mem_dest {dist : DistMap} {c dest : Coord} {minA : D} :
    ∀ (l : List Coord), dest ∈ l → ∀ (acc : List Vec2Q),
      blendLoop dist c dest minA l acc =
        [(Q2.ofInt (dest.1 - c.1), Q2.ofInt (dest.2 - c.2))] := by
  intro l
  induction l with
  | nil => intro h; cases h
  | cons n rest ih =>
    intro hmem acc
    unfold blendLoop
    by_cases hn : n = dest
    · rw [if_pos hn, hn]
    · rw [if_neg hn]
      have : dest ∈ rest := by
        rcases List.mem_cons.mp hmem with h | h
        · exact absurd h.symm hn
        · exact h
      exact ih this _

lemma vsum_single (v : Vec2Q) : vsum [v] = Vec2Q.add (Q2.ofInt 0, Q2.ofInt 0) v :=
  rfl

lemma vsum_single_ofInt (k l : Int) :
    vsum [(Q2.ofInt k, Q2.ofInt l)] = (Q2.ofInt k, Q2.ofInt l) := by
  show Vec2Q.add (Q2.ofInt 0, Q2.ofInt 0) (Q2.ofInt k, Q2.ofInt l) = _
  unfold Vec2Q.add Q2.add Q2.ofInt
  simp

/-- The guard of `debug_calculate_direction` is false for a passable
non-destination cell. -/
lemma direction_guard_false {G : Grid} {dest c : Coord}
    (hpass : (G c).isPassable = true) (hne : c ≠ dest) :
    (!(G c).isPassable || decide (c = dest)) = false := by
  simp [hpass, hne]

/-- C10 core: a passable non-destination cell with no finite-distance
reachable neighbour gets the NaN direction (empty candidate list → empty
vector list → zero sum → `normalize` NaN). -/
lemma direction_no_candidates {G : Grid} {dist : DistMap} {dest c : Coord}
    (hpass : (G c).isPassable = true) (hne : c ≠ dest)
    (hcands : (getReachableAdjacentCells G c).filter
      (fun n => dist.getC n ≠ .max) = []) :
    debugCalculateDirectionAt G dist dest c = .nan := by
  unfold debugCalculateDirectionAt
  rw [direction_guard_false hpass hne]
  simp only [Bool.false_eq_true, if_false, hcands]
  rfl

/-- C9 core: with a full 8-candidate set containing the destination, the
direction is the (normalised) offset pointing straight at the destination. -/
lemma direction_dest_adjacent {G : Grid} {dist : DistMap} {dest c : Coord}
    (hpass : (G c).isPassable = true) (hne : c ≠ dest)
    (hlen : ((getReachableAdjacentCells G c).filter
      (fun n => dist.getC n ≠ .max)).length = 8)
    (hmem : dest ∈ (getReachableAdjacentCells G c).filter
      (fun n => dist.getC n ≠ .max)) :
    debugCalculateDirectionAt G dist dest c =
      .norm (Q2.ofInt (dest.1 - c.1), Q2.ofInt (dest.2 - c.2)) := by
  unfold debugCalculateDirectionAt
  rw [direction_guard_false hpass hne]
  simp only [Bool.false_eq_true, if_false, hlen]
  rw [if_neg (by omega)]
  have hmem' : dest ∈ getReachableAdjacentCells G c := List.mem_of_mem_filter hmem
  rw [blendLoop_mem_dest _ hmem, vsum_single_ofInt]
  unfold normalizeModel
  rw [if_neg]
  intro hzero
  rw [Bool.and_eq_true] at hzero
  obtain ⟨hz1, hz2⟩ := hzero
  simp only [Q2.isZero, Q2.ofInt, Bool.and_eq_true, decide_eq_true_eq] at hz1 hz2
  obtain ⟨δ, hδ, -, heq⟩ := mem_reach_iff.mp hmem'
  have e1 : dest.1 = c.1 + δ.1 := congrArg Prod.fst heq
  have e2 : dest.2 = c.2 + δ.2 := congrArg Prod.snd heq
  exact dirs_ne_zero hδ ⟨by omega, by omega⟩

/-- C4 core (amended): with a full 8-candidate set not containing the
destination, a zero weighted sum is normalised into the NaN direction — there
is no fallback. -/
lemma direction_zero_sum_nan {G : Grid} {dist : DistMap} {dest c : Coord}
    (hpass : (G c).isPassable = true) (hne : c ≠ dest)
    (hlen : ((getReachableAdjacentCells G c).filter
      (fun n => dist.getC n ≠ .max)).length = 8)
    (hzero :
      (vsum (blendLoop dist c dest
        (((getReachableAdjacentCells G c).filter
          (fun n => dist.getC n ≠ .max)).foldl
            (fun acc n => acc.fmin (dist.getC n)) .max)
        ((getReachableAdjacentCells G c).filter
          (fun n => dist.getC n ≠ .max)) [])).1.isZero = true ∧
      (vsum (blendLoop dist c dest
        (((getReachableAdjacentCells G c).filter
          (fun n => dist.getC n ≠ .max)).foldl
            (fun acc n => acc.fmin (dist.getC n)) .max)
        ((getReachableAdjacentCells G c).filter
          (fun n => dist.getC n ≠ .max)) [])).2.isZero = true) :
    debugCalculateDirectionAt G dist dest c = .nan := by
  unfold debugCalculateDirectionAt
  rw [direction_guard_false hpass hne]
  simp only [Bool.false_eq_true, if_false, hlen]
  rw [if_neg (by omega)]
  unfold normalizeModel
  rw [if_pos]
  rw [Bool.and_eq_true]
  exact hzero

end Geowartry

namespace Geowartry

/-! ## Accessor and event-plumbing lemmas -/

lemma inBounds_false_cases {c : Coord} (h : inBounds c = false) :
    c.1 < minCol ∨ c.1 > maxCol ∨ c.2 < minRow ∨ c.2 > maxRow := by
  by_contra hcon
  push_neg at hcon
  obtain ⟨h1, h2, h3, h4⟩ := hcon
  have htrue : inBounds c = true := by
    unfold inBounds BOARD_COLUMN BOARD_ROW
    simp only [Bool.and_eq_true, decide_eq_true_eq]
    simp only [minCol, maxCol, minRow, maxRow, BOARD_COLUMN, BOARD_ROW]
      at h1 h2 h3 h4
    omega
  rw [htrue] at h
  cases h

lemma inBounds_true_cases {c : Coord} (h : inBounds c = true) :
    ¬(c.1 < minCol ∨ c.1 > maxCol) ∧ ¬(c.2 < minRow ∨ c.2 > maxRow) := by
  simp only [inBounds, BOARD_COLUMN, BOARD_ROW, Bool.and_eq_true,
    decide_eq_true_eq] at h
  simp only [minCol, maxCol, minRow, maxRow, BOARD_COLUMN, BOARD_ROW, not_or,
    not_lt, gt_iff_lt]
  omega

lemma getCell_oob (f : CellField) (c : Coord) (h : inBounds c = false) :
    getCell f c = .panicked := by
  unfold getCell
  rcases inBounds_false_cases h with h1 | h1 | h1 | h1
  · rw [if_pos (Or.inl h1)]
  · rw [if_pos (Or.inr h1)]
  · by_cases hcol : c.1 < minCol ∨ c.1 > maxCol
    · rw [if_pos hcol]
    · rw [if_neg hcol, if_pos (Or.inl h1)]
  · by_cases hcol : c.1 < minCol ∨ c.1 > maxCol
    · rw [if_pos hcol]
    · rw [if_neg hcol, if_pos (Or.inr h1)]

lemma getCell_ok (f : CellField) (c : Coord) (h : inBounds c = true) :
    getCell f c = .ok (f c) := by
  obtain ⟨h1, h2⟩ := inBounds_true_cases h
  unfold getCell
  rw [if_neg h1, if_neg h2]

lemma setCellState_oob (f : CellField) (c : Coord) (st : CellState)
    (h : inBounds c = false) : setCellState f c st = .panicked := by
  unfold setCellState
  rcases inBounds_false_cases h with h1 | h1 | h1 | h1
  · rw [if_pos (Or.inl h1)]
  · rw [if_pos (Or.inr h1)]
  · by_cases hcol : c.1 < minCol ∨ c.1 > maxCol
    · rw [if_pos hcol]
    · rw [if_neg hcol, if_pos (Or.inl h1)]
  · by_cases hcol : c.1 < minCol ∨ c.1 > maxCol
    · rw [if_pos hcol]
    · rw [if_neg hcol, if_pos (Or.inr h1)]

lemma setCellState_ok (f : CellField) (c : Coord) (st : CellState)
    (h : inBounds c = true) :
    setCellState f c st =
      .ok (fun u => if u = c then { f u with state := st } else f u) := by
  obtain ⟨h1, h2⟩ := inBounds_true_cases h
  unfold setCellState
  rw [if_neg h1, if_neg h2]

/-- `debug_unit_set_dest` stores the LAST pending destination request. -/
lemma getLast?_cons (d : Coord) (rest : List Coord) :
    (d :: rest).getLast? = rest.getLast?.or (some d) := by
  cases rest with
  | nil => rfl
  | cons e rs =>
    rw [List.getLast?_cons_cons]
    have hsome : ((e :: rs).getLast?).isSome = true := by
      rw [List.getLast?_isSome]
      simp
    obtain ⟨x, hx⟩ := Option.isSome_iff_exists.mp hsome
    rw [hx]
    rfl

/-- `debug_unit_set_dest` stores the LAST pending destination request (the
stored target is the last event read, or the previous target if no event is
pending). -/
lemma debugUnitSetDest_last (l : List Coord) (t : Option Coord) :
    debugUnitSetDest l t = l.getLast?.or t := by
  induction l generalizing t with
  | nil => rfl
  | cons d rest ih =>
    show debugUnitSetDest rest (some d) = _
    rw [ih (some d), getLast?_cons]
    cases h : rest.getLast? with
    | none => rfl
    | some x => rfl

/-- `debug_calculate_distance` consumes exactly the FIRST pending request of
the frame. -/
lemma frameStep_head (G : Grid) (fuel : Nat) (prev : DistMap) (d : Coord)
    (ds : List Coord) :
    frameStep G fuel (prev, d :: ds) =
      (debugCalculateDistance G d prev fuel).map (fun f => (f, ds)) := rfl

end Geowartry

namespace Geowartry

/-! ## Concrete solved fields for the scenario claims -/

/-- The solved distance field of the all-`Empty` grid with destination
`(2,2)` (fuel 400 amply covers the ≈150 pops of the run). -/
def c1final : DistMap :=
  (debugCalculateDistance emptyGrid (2, 2) initDistMap 400).getD initDistMap

/-- The solved distance field of the corner-cutting scenario. -/
def c2final : DistMap :=
  (debugCalculateDistance cornerGrid (2, 2) initDistMap 400).getD initDistMap

/-- The solved distance field after a destination request on the impassable
`Iron` cell `(3,3)`. -/
def c3final : DistMap :=
  (debugCalculateDistance ironDestGrid (3, 3) initDistMap 400).getD initDistMap

/-- The solved distance field of the one-obstacle grid. -/
def c7final : DistMap :=
  (debugCalculateDistance oneIronGrid (2, 2) initDistMap 400).getD initDistMap

/-- The solved distance field of the symmetric-room grid, destination
`(6,8)`. -/
def ringDists : DistMap :=
  (debugCalculateDistance ringGrid (6, 8) initDistMap 400).getD initDistMap

/-- The candidate list of cell `(6,5)` in the solved symmetric-room field. -/
def ringCands : List Coord :=
  (getReachableAdjacentCells ringGrid (6, 5)).filter
    (fun n => ringDists.getC n ≠ .max)

/-- Its minimum candidate distance. -/
def ringMin : D :=
  ringCands.foldl (fun acc n => acc.fmin (ringDists.getC n)) .max

end Geowartry

namespace Geowartry

/-! ## The claims -/

/-- **C5 (counterexample).** The accessors do not return an `OutOfBounds`
error for the out-of-bounds coordinate `(15, 0)`: both `get_cell` and the
mutating path through `get_cell_mut` panic. -/
theorem C5_counterexample :
    getCell initField (15, 0) = .panicked ∧
    setCellState initField (15, 0) .Iron = .panicked := by
  constructor <;> rfl

/-- **C5 (amended).** For every coordinate outside
`[0, COLUMNS) × [0, ROWS)`, `get_cell` and `get_cell_mut` panic — before any
mutation and without clamping — rather than returning an error value; for
every in-bounds coordinate they succeed. -/
theorem C5_amended (f : CellField) (c : Coord) (st : CellState) :
    (inBounds c = false →
      getCell f c = .panicked ∧ setCellState f c st = .panicked) ∧
    (inBounds c = true →
      getCell f c = .ok (f c) ∧
      setCellState f c st =
        .ok (fun u => if u = c then { f u with state := st } else f u)) :=
  ⟨fun h => ⟨getCell_oob f c h, setCellState_oob f c st h⟩,
   fun h => ⟨getCell_ok f c h, setCellState_ok f c st h⟩⟩

/-- Witness for C5 (amended) at the out-of-bounds coordinate `(15, 0)` and
the in-bounds coordinate `(3, 4)`. -/
theorem C5_amended_witness :
    (getCell initField (15, 0) = .panicked ∧
      setCellState initField (15, 0) .Iron = .panicked) ∧
    (getCell initField (3, 4) = .ok (initField (3, 4)) ∧
      setCellState initField (3, 4) .Iron =
        .ok (fun u => if u = (3, 4) then
          { initField u with state := .Iron } else initField u)) :=
  ⟨(C5_amended initField (15, 0) .Iron).1 (by decide),
   (C5_amended initField (3, 4) .Iron).2 (by decide)⟩

/-- **C6 (counterexample).** Right after `CellField::init`, a cell's
`debug_distance` is the `f32::NAN` sentinel, which is NOT the
`f32::MAX` "+infinity" sentinel that the solver and the renderer use for
unreachable/not-yet-computed distances. -/
theorem C6_counterexample :
    (initField (0, 0)).debug_distance = .nan ∧ D.nan ≠ D.max :=
  ⟨rfl, by decide⟩

/-- **C6 (amended).** Immediately after `CellField::init`, every cell has
state `Empty`, `debug_distance = f32::NAN` (not the `f32::MAX` infinity
sentinel) and the NaN direction sentinel. -/
theorem C6_amended :
    ∀ c : Coord, (initField c).state = .Empty ∧
      (initField c).debug_distance = .nan ∧
      (initField c).debug_direction = .nan :=
  fun _ => ⟨rfl, rfl, rfl⟩

/-- **C8 (amended).** Within one frame the distance system consumes exactly
the FIRST pending destination request, leaving the later ones for later
frames, while `debug_unit_set_dest` stores the LAST pending request as the
debug target. -/
theorem C8_amended (G : Grid) (fuel : Nat) (prev : DistMap) (d : Coord)
    (ds : List Coord) (t : Option Coord) :
    frameStep G fuel (prev, d :: ds) =
      (debugCalculateDistance G d prev fuel).map (fun f => (f, ds)) ∧
    debugUnitSetDest (d :: ds) t = ((d :: ds).getLast?).or t :=
  ⟨frameStep_head G fuel prev d ds, debugUnitSetDest_last _ _⟩

/-- **C10.** A passable non-destination cell with no finite-distance
reachable neighbour (empty candidate list) is assigned the NaN direction
sentinel by the direction pass — so the undefined-direction sentinel also
occurs on passable non-destination cells. -/
theorem C10_unreachable_direction_nan (G : Grid) (dist : DistMap)
    (dest c : Coord) (hpass : (G c).isPassable = true) (hne : c ≠ dest)
    (hcands : (getReachableAdjacentCells G c).filter
      (fun n => dist.getC n ≠ .max) = []) :
    debugCalculateDirectionAt G dist dest c = .nan :=
  direction_no_candidates hpass hne hcands

/-- Witness for C10: in the grid enclosing `(0,0)` with `Iron`, the passable
non-destination cell `(0,0)` gets the NaN direction. -/
theorem C10_unreachable_direction_nan_witness :
    (enclosedGrid (0, 0)).isPassable = true ∧
    debugCalculateDirectionAt enclosedGrid initDistMap (5, 5) (0, 0) = .nan :=
  ⟨by decide,
   C10_unreachable_direction_nan enclosedGrid initDistMap (5, 5) (0, 0)
     (by decide) (by decide) (by decide)⟩

end Geowartry

namespace Geowartry

/-- **C9.** For a passable non-destination cell whose candidate set has
exactly 8 reachable finite-distance neighbours and contains the destination,
the computed direction is the (normalised) offset pointing straight at the
destination — not the weighted blend (`DirVal.norm v` denotes `v / ‖v‖`, and
the stored offset's components are exactly the integer offset to the
destination). -/
theorem C9_direct_to_destination (G : Grid) (dist : DistMap) (dest c : Coord)
    (hpass : (G c).isPassable = true) (hne : c ≠ dest)
    (hlen : ((getReachableAdjacentCells G c).filter
      (fun n => dist.getC n ≠ .max)).length = 8)
    (hmem : dest ∈ (getReachableAdjacentCells G c).filter
      (fun n => dist.getC n ≠ .max)) :
    debugCalculateDirectionAt G dist dest c =
      .norm (Q2.ofInt (dest.1 - c.1), Q2.ofInt (dest.2 - c.2)) ∧
    (Q2.ofInt (dest.1 - c.1)).toReal = ((dest.1 - c.1 : Int) : ℝ) ∧
    (Q2.ofInt (dest.2 - c.2)).toReal = ((dest.2 - c.2 : Int) : ℝ) :=
  ⟨direction_dest_adjacent hpass hne hlen hmem,
   Q2.toReal_ofInt _, Q2.toReal_ofInt _⟩

/-- Witness for C9: on the solved all-`Empty` field with destination `(2,2)`,
cell `(1,1)` has all 8 candidates, the destination among them, and points
straight at it. -/
theorem C9_direct_to_destination_witness :
    debugCalculateDirectionAt emptyGrid c1final (2, 2) (1, 1) =
      .norm (Q2.ofInt ((2 : Int) - 1), Q2.ofInt ((2 : Int) - 1)) ∧
    (Q2.ofInt ((2 : Int) - 1)).toReal = (((2 : Int) - 1 : Int) : ℝ) ∧
    (Q2.ofInt ((2 : Int) - 1)).toReal = (((2 : Int) - 1 : Int) : ℝ) := by
  have h := C9_direct_to_destination emptyGrid c1final (2, 2) (1, 1)
    (by decide) (by decide) (by decide) (by decide)
  exact ⟨h.1, h.2.1, h.2.2⟩

end Geowartry

namespace Geowartry

/-- **C4 (counterexample).** In the symmetric-room grid with destination
`(6,8)`, cell `(6,5)` is passable, is not the destination, has a full
8-candidate set whose weighted direction vectors sum to exactly zero — and
the direction pass stores the NaN direction for it (normalising the
zero-length sum) instead of falling back to the single-nearest-neighbour
rule, which would have produced the unit vector toward `(7,5)`. -/
theorem C4_counterexample :
    (ringGrid (6, 5)).isPassable = true ∧
    ringCands.length = 8 ∧
    (vsum (blendLoop ringDists (6, 5) (6, 8) ringMin ringCands [])).1.isZero
      = true ∧
    (vsum (blendLoop ringDists (6, 5) (6, 8) ringMin ringCands [])).2.isZero
      = true ∧
    debugCalculateDirectionAt ringGrid ringDists (6, 8) (6, 5) = .nan ∧
    normalizeModel (vsum (tieLoop ringGrid ringDists (6, 5) ringMin ringCands))
      = .norm (Q2.ofInt 1, Q2.ofInt 0) ∧
    DirVal.nan ≠ .norm (Q2.ofInt 1, Q2.ofInt 0) := by
  exact ⟨by decide, by decide, by decide, by decide, by decide, by decide,
    by decide⟩

/-- **C4 (amended).** The direction solver has no degenerate-sum fallback:
for a passable non-destination cell with a full 8-candidate set (destination
not adjacent) whose weighted vectors cancel to the zero vector, the code
normalises the zero-length sum and stores the NaN direction. -/
theorem C4_amended (G : Grid) (dist : DistMap) (dest c : Coord)
    (hpass : (G c).isPassable = true) (hne : c ≠ dest)
    (hlen : ((getReachableAdjacentCells G c).filter
      (fun n => dist.getC n ≠ .max)).length = 8)
    (hzero :
      (vsum (blendLoop dist c dest
        (((getReachableAdjacentCells G c).filter
          (fun n => dist.getC n ≠ .max)).foldl
            (fun acc n => acc.fmin (dist.getC n)) .max)
        ((getReachableAdjacentCells G c).filter
          (fun n => dist.getC n ≠ .max)) [])).1.isZero = true ∧
      (vsum (blendLoop dist c dest
        (((getReachableAdjacentCells G c).filter
          (fun n => dist.getC n ≠ .max)).foldl
            (fun acc n => acc.fmin (dist.getC n)) .max)
        ((getReachableAdjacentCells G c).filter
          (fun n => dist.getC n ≠ .max)) [])).2.isZero = true) :
    debugCalculateDirectionAt G dist dest c = .nan :=
  direction_zero_sum_nan hpass hne hlen hzero

/-- Witness for C4 (amended) on the symmetric-room grid. -/
theorem C4_amended_witness :
    debugCalculateDirectionAt ringGrid ringDists (6, 8) (6, 5) = .nan :=
  C4_amended ringGrid ringDists (6, 8) (6, 5) (by decide) (by decide)
    (by decide) ⟨by decide, by decide⟩

end Geowartry

namespace Geowartry

/-- **C3 (counterexample).** A destination request targeting the impassable
`Iron` cell `(3,3)` is not rejected with any error: the solver runs anyway,
sets the impassable destination's distance to `0`, computes the neighbour
`(2,3)`'s distance as `1`, and overwrites the previous (`NaN`) distances. -/
theorem C3_counterexample :
    (ironDestGrid (3, 3)).isPassable = false ∧
    debugCalculateDistance ironDestGrid (3, 3) initDistMap 400 = some c3final ∧
    c3final.getC (3, 3) = .fin (0, 0) ∧
    c3final.getC (2, 3) = .fin (1, 0) ∧
    initDistMap.getC (3, 3) = .nan ∧
    c3final.getC (3, 3) ≠ initDistMap.getC (3, 3) := by
  exact ⟨by decide, by decide, by decide, by decide, by decide, by decide⟩

/-- **C3 (amended).** Destination requests are not validated: for an
impassable in-bounds destination the solve still runs to completion — the
destination cell ends with distance `0`, and every impassable
non-destination cell ends with the `f32::MAX` sentinel; the previously
solved distances are overwritten, not preserved. -/
theorem C3_amended (G : Grid) (dest : Coord) (prev : DistMap) (fuel : Nat)
    (final : DistMap) (_hpass : (G dest).isPassable = false)
    (hShape : prev.Shape)
    (hrun : debugCalculateDistance G dest prev fuel = some final) :
    final.getC dest = .fin (0, 0) ∧
    ∀ c, inBounds c = true → (G c).isPassable = false → c ≠ dest →
      final.getC c = .max :=
  solve_overwrites hShape hrun

/-- Witness for C3 (amended) on the `Iron`-destination grid. -/
theorem C3_amended_witness :
    c3final.getC (3, 3) = .fin (0, 0) ∧
    ∀ c, inBounds c = true → (ironDestGrid c).isPassable = false →
      c ≠ (3, 3) → c3final.getC c = .max :=
  C3_amended ironDestGrid (3, 3) initDistMap 400 c3final (by decide)
    initDistMap_shape (by decide)

/-- **C7 (counterexample).** A distance solve does not leave impassable
cells' distances unchanged: the impassable cell `(0,1)` holds `NaN` before
the solve and the `f32::MAX` sentinel after it. -/
theorem C7_counterexample :
    (oneIronGrid (0, 1)).isPassable = false ∧
    initDistMap.getC (0, 1) = .nan ∧
    debugCalculateDistance oneIronGrid (2, 2) initDistMap 400 = some c7final ∧
    c7final.getC (0, 1) = .max ∧
    c7final.getC (0, 1) ≠ initDistMap.getC (0, 1) := by
  exact ⟨by decide, by decide, by decide, by decide, by decide⟩

/-- **C7 (amended).** A distance solve rewrites every cell's distance: the
reset sets all cells — impassable ones included — to `f32::MAX`, the
destination (checked for bounds only) is set to `0`, and relaxation then
touches only passable cells, so each impassable non-destination cell ends at
`f32::MAX` whatever its previous value was. -/
theorem C7_amended (G : Grid) (dest : Coord) (prev : DistMap) (fuel : Nat)
    (final : DistMap) (hShape : prev.Shape)
    (hrun : debugCalculateDistance G dest prev fuel = some final) :
    (∀ c, inBounds c = true → (G c).isPassable = false → c ≠ dest →
      final.getC c = .max) ∧
    final.getC dest = .fin (0, 0) :=
  ⟨(solve_overwrites hShape hrun).2, (solve_overwrites hShape hrun).1⟩

/-- Witness for C7 (amended) on the one-obstacle grid. -/
theorem C7_amended_witness :
    (∀ c, inBounds c = true → (oneIronGrid c).isPassable = false →
      c ≠ (2, 2) → c7final.getC c = .max) ∧
    c7final.getC (2, 2) = .fin (0, 0) :=
  C7_amended oneIronGrid (2, 2) initDistMap 400 c7final initDistMap_shape
    (by decide)

/-- **C8 (counterexample).** With two destination requests `(2,2)` then
`(3,3)` pending in the same frame, the frame's solve produces the field for
the EARLIER request `(2,2)` (its distance there is `0`), which differs from
the field a solve for the most recent request `(3,3)` would produce
(distance `√2` at `(2,2)`); the later request stays queued for the next
frame, while the stored debug target is already `(3,3)`. -/
theorem C8_counterexample :
    (frameStep emptyGrid 400 (initDistMap, [(2, 2), (3, 3)])).map
        (fun p => (p.1.getC (2, 2), p.2)) = some (D.fin (0, 0), [(3, 3)]) ∧
    (debugCalculateDistance emptyGrid (3, 3) initDistMap 400).map
        (fun f => f.getC (2, 2)) = some (D.fin (0, 1)) ∧
    D.fin (0, 0) ≠ D.fin (0, 1) ∧
    debugUnitSetDest [(2, 2), (3, 3)] none = some (3, 3) := by
  exact ⟨by decide, by decide, by decide, by decide⟩

end Geowartry

namespace Geowartry

/-- **C2.** (i) A diagonal neighbour is excluded from
`get_reachable_adjacent_cells` if and only if it is out of bounds,
impassable, or both orthogonal cells adjacent to the diagonal step are
impassable; (ii) the solver's relaxation loop never crosses a
corner-blocked diagonal; (iii) in the scenario with `(2,1)` and `(1,2)`
`Iron` and destination `(2,2)`, the solved distance of `(1,1)` is
`3√2`, strictly greater than `√2` — the detour, not the blocked diagonal. -/
theorem C2_corner_blocking :
    (∀ (G : Grid) (c : Coord) (δ : Int × Int), δ ∈ dirs → δ.1 * δ.2 ≠ 0 →
      ((c.1 + δ.1, c.2 + δ.2) ∉ getReachableAdjacentCells G c ↔
        inBounds (c.1 + δ.1, c.2 + δ.2) = false ∨
        (G (c.1 + δ.1, c.2 + δ.2)).isPassable = false ∨
        ((G (c.1, c.2 + δ.2)).isPassable = false ∧
          (G (c.1 + δ.1, c.2)).isPassable = false))) ∧
    (∀ (G : Grid) (x y : Int) (dv : PLen) (s : SState) (δ : Int × Int),
      δ.1 * δ.2 ≠ 0 → (G (x, y + δ.2)).isPassable = false →
      (G (x + δ.1, y)).isPassable = false → relaxDir G x y dv s δ = s) ∧
    debugCalculateDistance cornerGrid (2, 2) initDistMap 400 = some c2final ∧
    c2final.getC (1, 1) = .fin (0, 3) ∧
    PLen.toReal (0, 3) = 3 * Real.sqrt 2 ∧
    Real.sqrt 2 < PLen.toReal (0, 3) := by
  refine ⟨?_, ?_, by decide, by decide, ?_, ?_⟩
  · intro G c δ hδ hdiag
    rw [mem_reach_offset hδ]
    constructor
    · intro h
      refine (stepOk_false_iff_diag hdiag).mp ?_
      revert h
      cases stepOk G c δ <;> simp
    · intro h
      rw [(stepOk_false_iff_diag hdiag).mpr h]
      simp
  · intro G x y dv s δ h1 h2 h3
    exact relaxDir_corner_blocked h1 h2 h3
  · unfold PLen.toReal
    push_cast
    ring
  · unfold PLen.toReal
    have := sqrt2_pos
    push_cast
    linarith

/-- Witness for C2: in the corner scenario the diagonal step from `(1,1)` to
`(2,2)` is excluded from the reachable set because both `(1,2)` and `(2,1)`
are impassable. -/
theorem C2_corner_blocking_witness :
    ((1 : Int) + 1, (1 : Int) + 1) ∉ getReachableAdjacentCells cornerGrid (1, 1) :=
  (C2_corner_blocking.1 cornerGrid (1, 1) (1, 1) (by decide) (by decide)).mpr
    (Or.inr (Or.inr ⟨by decide, by decide⟩))

/-- **C1.** On termination of the distance solve for a passable destination,
every cell reachable from the destination by valid moves (8-connected,
orthogonal cost 1, diagonal cost √2, never crossing a corner-blocked
diagonal) holds a `distance` that is the length of some valid path from the
destination and is ≤ the length of every valid path — i.e. the true shortest
path length.  In particular, on the all-`Empty` grid with destination
`(2,2)`: `distance(2,2) = 0`, `distance(0,0) = 2·√2`, `distance(2,0) = 2`. -/
theorem C1_distance_correct :
    (∀ (G : Grid) (dest : Coord) (prev : DistMap) (fuel : Nat)
        (final : DistMap), (G dest).isPassable = true → prev.Shape →
      debugCalculateDistance G dest prev fuel = some final →
      ∀ c w₀, ValidPath G dest c w₀ →
        ∃ v, final.getC c = .fin v ∧ ValidPath G dest c v ∧
          ∀ w', ValidPath G dest c w' → v.toReal ≤ w'.toReal) ∧
    debugCalculateDistance emptyGrid (2, 2) initDistMap 400 = some c1final ∧
    c1final.getC (2, 2) = .fin (0, 0) ∧ PLen.toReal (0, 0) = 0 ∧
    c1final.getC (0, 0) = .fin (0, 2) ∧
    PLen.toReal (0, 2) = 2 * Real.sqrt 2 ∧
    c1final.getC (2, 0) = .fin (2, 0) ∧ PLen.toReal (2, 0) = 2 := by
  refine ⟨?_, by decide, by decide, ?_, by decide, ?_, by decide, ?_⟩
  · intro G dest prev fuel final _ hShape hrun
    exact distance_solve_correct hShape hrun
  · unfold PLen.toReal; norm_num
  · unfold PLen.toReal; push_cast; ring
  · unfold PLen.toReal; norm_num

/-- Witness for C1: instantiated on the all-`Empty` grid at the reachable
cell `(0,0)` (reached by the two diagonal steps `(2,2) → (1,1) → (0,0)`). -/
theorem C1_distance_correct_witness :
    ∃ v, c1final.getC (0, 0) = .fin v ∧
      ValidPath emptyGrid (2, 2) (0, 0) v ∧
      ∀ w', ValidPath emptyGrid (2, 2) (0, 0) w' →
        v.toReal ≤ w'.toReal := by
  have p1 : ValidPath emptyGrid (2, 2) (1, 1) (0, 1) := by
    have e1 : ((1 : Int), (1 : Int)) = (((2 : Int), (2 : Int)).1 + (-1 : Int),
        ((2 : Int), (2 : Int)).2 + (-1 : Int)) := by norm_num
    have e2 : ((0, 1) : PLen) = PLen.add (0, 0) (stepCost (-1, -1)) := by
      decide
    rw [e1, e2]
    exact ValidPath.cons (δ := (-1, -1)) ValidPath.nil (by decide) (by decide)
  have p2 : ValidPath emptyGrid (2, 2) (0, 0) (0, 2) := by
    have e1 : ((0 : Int), (0 : Int)) = (((1 : Int), (1 : Int)).1 + (-1 : Int),
        ((1 : Int), (1 : Int)).2 + (-1 : Int)) := by norm_num
    have e2 : ((0, 2) : PLen) = PLen.add (0, 1) (stepCost (-1, -1)) := by
      decide
    rw [e1, e2]
    exact ValidPath.cons (δ := (-1, -1)) p1 (by decide) (by decide)
  exact C1_distance_correct.1 emptyGrid (2, 2) initDistMap 400 c1final rfl
    initDistMap_shape (by decide) (0, 0) (0, 2) p2

end Geowartry
